import Mathlib

/-!
Shallow embedding of the FTS (full-text search) kernel algorithms of
src/index/FTSAlgorithms.cpp, together with theorems settling the claims
about them.

Modelling conventions:
- Machine integers (TextRecordIndex, Id, Score, WordIndex) are modelled as
  Nat: the kernel only compares and adds them, and scores are specified as
  non-overflowing within a query.
- Vector reads performed by the C++ code without a sufficient bounds guard
  are modelled as Option-valued (none = out-of-bounds read, which is
  undefined behaviour in the source); reads that the code guards explicitly
  are modelled with getD, whose default value is never exposed under the
  guard.
- Hash maps are modelled as association lists in key-insertion order (the
  C++ hash iteration order is unspecified, and no claim depends on the
  order of distinct groups); std::set is modelled as a strictly-sorted
  list, whose begin() is the head.
-/

namespace FTS

/-- WordEntityPostings bundle: parallel columns of a posting stream. In this
source revision the wids member holds a single word column. -/
structure WEP where
  cids   : List Nat
  wids   : List Nat
  eids   : List Nat
  scores : List Nat
  deriving Repr, DecidableEq

def WEP.emptyWep : WEP := ⟨[], [], [], []⟩

/-- Advance loop shared by the intersection routines: the first index at or
after i whose entry is not below the bound, or the length if none is. -/
def skipLow (cs : List Nat) (bound : Nat) (i : Nat) : Nat :=
  if h : i < cs.length then
    if cs.get ⟨i, h⟩ < bound then skipLow cs bound (i + 1) else i
  else cs.length
termination_by cs.length - i

theorem skipLow_ge (cs : List Nat) (bound : Nat) (i : Nat) (h : i ≤ cs.length) :
    i ≤ skipLow cs bound i := by
  unfold skipLow
  split
  · split
    · have := skipLow_ge cs bound (i + 1) (by omega)
      omega
    · exact Nat.le_refl i
  · exact h
termination_by cs.length - i

theorem skipLow_le_length (cs : List Nat) (bound : Nat) (i : Nat) :
    skipLow cs bound i ≤ cs.length := by
  unfold skipLow
  split
  · split
    · exact skipLow_le_length cs bound (i + 1)
    · omega
  · exact Nat.le_refl _
termination_by cs.length - i

theorem skipLow_cons_eq (cs : List Nat) (bound : Nat) (i : Nat) (hi : i < cs.length)
    (hlt : cs.get ⟨i, hi⟩ < bound) :
    skipLow cs bound i = skipLow cs bound (i + 1) := by
  rw [skipLow, dif_pos hi, if_pos hlt]

theorem skipLow_stay_eq (cs : List Nat) (bound : Nat) (i : Nat) (hi : i < cs.length)
    (hge : ¬ cs.get ⟨i, hi⟩ < bound) :
    skipLow cs bound i = i := by
  rw [skipLow, dif_pos hi, if_neg hge]

theorem skipLow_skipped (cs : List Nat) (bound : Nat) (i : Nat) :
    ∀ m, i ≤ m → m < skipLow cs bound i → cs.getD m 0 < bound := by
  intro m him hm
  by_cases hi : i < cs.length
  · by_cases hlt : cs.get ⟨i, hi⟩ < bound
    · rcases Nat.eq_or_lt_of_le him with rfl | hmlt
      · rw [List.getD_eq_getElem _ _ hi]
        rw [List.get_eq_getElem] at hlt
        exact hlt
      · rw [skipLow_cons_eq cs bound i hi hlt] at hm
        exact skipLow_skipped cs bound (i + 1) m hmlt hm
    · rw [skipLow_stay_eq cs bound i hi hlt] at hm
      omega
  · rw [skipLow, dif_neg hi] at hm
    omega
termination_by cs.length - i

theorem skipLow_stop (cs : List Nat) (bound : Nat) (i : Nat)
    (h : skipLow cs bound i < cs.length) :
    bound ≤ cs.getD (skipLow cs bound i) 0 := by
  by_cases hi : i < cs.length
  · by_cases hlt : cs.get ⟨i, hi⟩ < bound
    · rw [skipLow_cons_eq cs bound i hi hlt] at h ⊢
      exact skipLow_stop cs bound (i + 1) h
    · rw [skipLow_stay_eq cs bound i hi hlt] at h ⊢
      rw [List.getD_eq_getElem _ _ hi]
      have hlt2 : ¬ cs[i] < bound := by simpa using hlt
      omega
  · rw [skipLow, dif_neg hi] at h
    omega
termination_by cs.length - i

/-- Output row of crossIntersect: (wid, cid, eid, score); wid comes from the
left (word) side, the rest from the right (entity) side. -/
abbrev Row4 := Nat × Nat × Nat × Nat

/-- Inner run scan of FTSAlgorithms::crossIntersect: walks the left run of
equal cids starting at index i (offset k), pushing one row per left element
paired with right row j. The source reads the left cids at i + k before any
guard, and its only guard compares k (not i + k) against the length, so the
read can go out of bounds; that read is the none case. -/
def ciRun (L R : WEP) (i j k : Nat) : Option (List Row4) :=
  if hik : i + k < L.cids.length then
    if L.cids.get ⟨i + k, hik⟩ = L.cids.getD i 0 then
      if hk : L.cids.length ≤ k + 1 then
        some [(L.wids.getD (i + k) 0, R.cids.getD j 0, R.eids.getD j 0, R.scores.getD j 0)]
      else
        (ciRun L R i j (k + 1)).map
          (fun rs => (L.wids.getD (i + k) 0, R.cids.getD j 0, R.eids.getD j 0,
            R.scores.getD j 0) :: rs)
    else some []
  else none
termination_by L.cids.length - k
decreasing_by omega

/-- Equality loop of FTSAlgorithms::crossIntersect: while left cids at i and
right cids at j agree, run the inner scan and advance j; returns the emitted
rows together with the final value of j. -/
def ciEq (L R : WEP) (i j : Nat) : Option (List Row4 × Nat) :=
  if L.cids.getD i 0 = R.cids.getD j 0 then
    match ciRun L R i j 0 with
    | none => none
    | some rows =>
      if hj : R.cids.length ≤ j + 1 then some (rows, j + 1)
      else
        match ciEq L R i (j + 1) with
        | none => none
        | some (rs, j2) => some (rows ++ rs, j2)
  else some ([], j)
termination_by R.cids.length - j
decreasing_by omega

/-- Outer loop of FTSAlgorithms::crossIntersect: two monotone cursors i, j;
each advances past entries below the other side, the equality loop emits the
per-context cross-product, then i advances by one. -/
def ciOuter (L R : WEP) (i j : Nat) : Option (List Row4) :=
  if h : i < L.cids.length ∧ j < R.cids.length then
    let i1 := skipLow L.cids (R.cids.getD j 0) i
    if h1 : i1 < L.cids.length then
      let j1 := skipLow R.cids (L.cids.getD i1 0) j
      if h2 : j1 < R.cids.length then
        match ciEq L R i1 j1 with
        | none => none
        | some (rows, j2) =>
          match ciOuter L R (i1 + 1) j2 with
          | none => none
          | some rest => some (rows ++ rest)
      else some []
    else some []
  else some []
termination_by L.cids.length - i
decreasing_by
  have := skipLow_ge L.cids (R.cids.getD j 0) i (Nat.le_of_lt h.1)
  omega

/-- Rebuild a result WEP from pushed rows (the source pushes to the four
parallel vectors in lockstep). -/
def wepOfRows (rows : List Row4) : WEP :=
  { cids := rows.map (fun r => r.2.1), wids := rows.map (fun r => r.1),
    eids := rows.map (fun r => r.2.2.1), scores := rows.map (fun r => r.2.2.2) }

/-- FTSAlgorithms::crossIntersect (word side left, entity side right). -/
def crossIntersect (L R : WEP) : Option WEP :=
  if L.cids.isEmpty ∨ R.cids.isEmpty then some WEP.emptyWep
  else (ciOuter L R 0 0).map wepOfRows

/-- Inclusive word-id interval, as in IdRange. -/
structure IdRange where
  first : Nat
  last  : Nat
  deriving Repr, DecidableEq

/-- Loop of FTSAlgorithms::filterByRange: walk index i over the single word
column, appending the rows whose word id lies in the inclusive range. Rows
are (cid, score, wid) triples. -/
def filterByRangeFrom (r : IdRange) (wep : WEP) (i : Nat) : List (Nat × Nat × Nat) :=
  if h : i < wep.wids.length then
    (if r.first ≤ wep.wids.get ⟨i, h⟩ ∧ wep.wids.get ⟨i, h⟩ ≤ r.last then
        [(wep.cids.getD i 0, wep.scores.getD i 0, wep.wids.get ⟨i, h⟩)]
      else []) ++ filterByRangeFrom r wep (i + 1)
  else []
termination_by wep.wids.length - i

/-- FTSAlgorithms::filterByRange; the two AD_CHECKs at entry are the none
case, and the eids column of the result is untouched by the source (empty). -/
def filterByRange (r : IdRange) (wep : WEP) : Option WEP :=
  if wep.cids.length = wep.wids.length ∧ wep.cids.length = wep.scores.length then
    let rows := filterByRangeFrom r wep 0
    some { cids := rows.map (fun t => t.1), wids := rows.map (fun t => t.2.2),
           eids := [], scores := rows.map (fun t => t.2.1) }
  else none

/-- Rows of a one-word-column WEP as (cid, score, wid) triples, in input
order. -/
def WEP.rows1 (wep : WEP) : List (Nat × Nat × Nat) :=
  wep.cids.zip (wep.scores.zip wep.wids)

/-- Rebuild a WEP from (cid, score, wid) rows, with no entity column. -/
def wepOfRows1 (rows : List (Nat × Nat × Nat)) : WEP :=
  { cids := rows.map (fun t => t.1), wids := rows.map (fun t => t.2.2),
    eids := [], scores := rows.map (fun t => t.2.1) }

theorem rows1_length (wep : WEP) (h1 : wep.cids.length = wep.wids.length)
    (h2 : wep.cids.length = wep.scores.length) :
    wep.rows1.length = wep.cids.length := by
  simp [WEP.rows1, List.length_zip]
  omega

theorem filterByRangeFrom_eq_filter (r : IdRange) (wep : WEP)
    (h1 : wep.cids.length = wep.wids.length) (h2 : wep.cids.length = wep.scores.length)
    (i : Nat) :
    filterByRangeFrom r wep i =
      (wep.rows1.drop i).filter (fun t => decide (r.first ≤ t.2.2 ∧ t.2.2 ≤ r.last)) := by
  by_cases hi : i < wep.wids.length
  · have hic : i < wep.cids.length := by omega
    have his : i < wep.scores.length := by omega
    have hr : i < wep.rows1.length := by rw [rows1_length wep h1 h2]; omega
    rw [List.drop_eq_getElem_cons hr, List.filter_cons]
    have hget : wep.rows1[i] = (wep.cids[i], wep.scores[i], wep.wids[i]) := by
      simp [WEP.rows1, List.getElem_zip]
    rw [filterByRangeFrom, dif_pos hi,
      filterByRangeFrom_eq_filter r wep h1 h2 (i + 1), hget]
    rw [List.getD_eq_getElem _ _ hic, List.getD_eq_getElem _ _ his]
    by_cases hp : r.first ≤ wep.wids[i] ∧ wep.wids[i] ≤ r.last
    · rw [if_pos (by simpa using hp), if_pos (by simpa using hp)]
      simp
    · rw [if_neg (by simpa using hp), if_neg (by simpa using hp)]
      simp
  · rw [filterByRangeFrom, dif_neg hi]
    have hlen : wep.rows1.length ≤ i := by rw [rows1_length wep h1 h2]; omega
    rw [List.drop_eq_nil_of_le hlen]
    rfl
termination_by wep.wids.length - i

/-! Claim-side description of the two-way cross-intersection: for every right
row, one output row per left row carrying the same context. -/

/-- Indices of the left (word) side whose context equals v. -/
def leftMatches (L : WEP) (v : Nat) : List Nat :=
  (List.range L.cids.length).filter (fun m => decide (L.cids.getD m 0 = v))

/-- Output row pairing right index jj with left index m: word from the left,
context, entity and score from the right. -/
def pairRow (L R : WEP) (jj m : Nat) : Row4 :=
  (L.wids.getD m 0, R.cids.getD jj 0, R.eids.getD jj 0, R.scores.getD jj 0)

/-- Rows of the full per-context cross-product from right index j on. -/
def crossRowsFrom (L R : WEP) (j : Nat) : List Row4 :=
  (List.range' j (R.cids.length - j)).flatMap
    (fun jj => (leftMatches L (R.cids.getD jj 0)).map (pairRow L R jj))

/-- Rows of the full per-context cross-product: for every right row (in
order), one row for every left row with the same context. -/
def crossRows (L R : WEP) : List Row4 := crossRowsFrom L R 0

theorem sorted_getD_mono {cs : List Nat} (hs : cs.Sorted (· ≤ ·)) {a b : Nat}
    (hab : a ≤ b) (hb : b < cs.length) : cs.getD a 0 ≤ cs.getD b 0 := by
  have ha : a < cs.length := Nat.lt_of_le_of_lt hab hb
  rw [List.getD_eq_getElem _ _ ha, List.getD_eq_getElem _ _ hb]
  rcases Nat.eq_or_lt_of_le hab with rfl | h
  · exact Nat.le_refl _
  · exact (List.pairwise_iff_getElem.mp hs) a b ha hb h

theorem run_facts (v : Nat) (d : List Nat) (hs : d.Sorted (· ≤ ·))
    (hge : ∀ x ∈ d, v ≤ x) :
    (∀ m, m < d.countP (fun c => decide (c = v)) → d.getD m 0 = v) ∧
      d.countP (fun c => decide (c = v)) ≤ d.length ∧
      (d.countP (fun c => decide (c = v)) < d.length →
        v < d.getD (d.countP (fun c => decide (c = v))) 0) := by
  induction d with
  | nil => simp
  | cons c d ih =>
    have hs' : d.Sorted (· ≤ ·) := hs.tail
    have hcrel : ∀ x ∈ d, c ≤ x := List.rel_of_sorted_cons hs
    by_cases hc : c = v
    · subst hc
      have hge' : ∀ x ∈ d, c ≤ x := hcrel
      obtain ⟨ih1, ih2, ih3⟩ := ih hs' hge'
      have hcount : (c :: d).countP (fun x => decide (x = c)) =
          d.countP (fun x => decide (x = c)) + 1 := by
        rw [List.countP_cons]
        simp
      refine ⟨?_, ?_, ?_⟩
      · intro m hm
        rw [hcount] at hm
        match m with
        | 0 => rfl
        | m + 1 =>
          have := ih1 m (by omega)
          simpa using this
      · rw [hcount]
        simp only [List.length_cons]
        omega
      · intro hlt
        rw [hcount] at hlt ⊢
        simp only [List.length_cons] at hlt
        have := ih3 (by omega)
        simpa using this
    · have hcv : v < c := Nat.lt_of_le_of_ne (hge c (by simp)) (fun h => hc h.symm)
      have hzero : (c :: d).countP (fun x => decide (x = v)) = 0 := by
        rw [List.countP_eq_zero]
        intro x hx
        simp only [decide_eq_true_eq]
        rcases List.mem_cons.mp hx with rfl | hx'
        · exact hc
        · have := hcrel x hx'
          omega
      rw [hzero]
      refine ⟨by omega, by simp, ?_⟩
      intro _
      simpa using hcv

theorem filter_range_interval (n a c : Nat) (p : Nat → Bool) (hac : a + c ≤ n)
    (hp : ∀ m, m < n → (p m = true ↔ a ≤ m ∧ m < a + c)) :
    (List.range n).filter p = List.range' a c := by
  have hsplit : List.range n =
      (List.range' 0 a ++ List.range' a c) ++ List.range' (a + c) (n - a - c) := by
    have e1 := List.range'_append 0 a c 1
    rw [show 0 + 1 * a = a by omega] at e1
    have e2 := List.range'_append 0 (c + a) (n - a - c) 1
    rw [show 0 + 1 * (c + a) = a + c by omega,
      show n - a - c + (c + a) = n by omega] at e2
    rw [List.range_eq_range', ← e2, ← e1]
  rw [hsplit, List.filter_append, List.filter_append]
  have hlo : (List.range' 0 a).filter p = [] := by
    rw [List.filter_eq_nil_iff]
    intro m hm
    rw [List.mem_range'] at hm
    obtain ⟨i, hi, rfl⟩ := hm
    intro hpm
    have := (hp _ (by omega)).mp hpm
    omega
  have hmid : (List.range' a c).filter p = List.range' a c := by
    rw [List.filter_eq_self]
    intro m hm
    rw [List.mem_range'] at hm
    obtain ⟨i, hi, rfl⟩ := hm
    exact (hp _ (by omega)).mpr ⟨by omega, by omega⟩
  have hhi : (List.range' (a + c) (n - a - c)).filter p = [] := by
    rw [List.filter_eq_nil_iff]
    intro m hm
    rw [List.mem_range'] at hm
    obtain ⟨i, hi, rfl⟩ := hm
    intro hpm
    have := (hp _ (by omega)).mp hpm
    omega
  rw [hlo, hmid, hhi, List.nil_append, List.append_nil]

/-- Structure of the run of the value v inside a sorted cids column: if i1 is
the first index carrying v, the indices carrying v are exactly the interval
of length countP starting at i1. -/
theorem leftRun (L : WEP) (hs : L.cids.Sorted (· ≤ ·)) (v i1 : Nat)
    (hi1 : i1 < L.cids.length) (hv : L.cids.getD i1 0 = v)
    (hall : ∀ m, m < i1 → L.cids.getD m 0 < v) :
    1 ≤ L.cids.countP (fun c => decide (c = v)) ∧
      i1 + L.cids.countP (fun c => decide (c = v)) ≤ L.cids.length ∧
      (∀ m, m < L.cids.countP (fun c => decide (c = v)) →
        L.cids.getD (i1 + m) 0 = v) ∧
      (i1 + L.cids.countP (fun c => decide (c = v)) < L.cids.length →
        v < L.cids.getD (i1 + L.cids.countP (fun c => decide (c = v))) 0) ∧
      leftMatches L v = List.range' i1 (L.cids.countP (fun c => decide (c = v))) := by
  set d : List Nat := L.cids.drop i1 with hd
  have hdlen : d.length = L.cids.length - i1 := List.length_drop _ _
  have hdget : ∀ m, m < d.length → d.getD m 0 = L.cids.getD (i1 + m) 0 := by
    intro m hm
    rw [List.getD_eq_getElem _ _ hm, List.getD_eq_getElem _ _ (by omega)]
    exact List.getElem_drop _
  have hsD : d.Sorted (· ≤ ·) :=
    List.Pairwise.sublist (List.drop_sublist i1 L.cids) hs
  have hgeD : ∀ x ∈ d, v ≤ x := by
    intro x hx
    obtain ⟨m, hm, rfl⟩ := List.mem_iff_getElem.mp hx
    have h1 : d.getD m 0 = L.cids.getD (i1 + m) 0 := hdget m hm
    rw [List.getD_eq_getElem _ _ hm] at h1
    rw [h1]
    calc v = L.cids.getD i1 0 := hv.symm
    _ ≤ L.cids.getD (i1 + m) 0 := sorted_getD_mono hs (by omega) (by omega)
  obtain ⟨hr1, hr2, hr3⟩ := run_facts v d hsD hgeD
  have hcntd : L.cids.countP (fun c => decide (c = v)) =
      d.countP (fun c => decide (c = v)) := by
    conv_lhs => rw [← List.take_append_drop i1 L.cids]
    rw [List.countP_append]
    have : (L.cids.take i1).countP (fun c => decide (c = v)) = 0 := by
      rw [List.countP_eq_zero]
      intro x hx
      obtain ⟨m, hm, rfl⟩ := List.mem_iff_getElem.mp hx
      have hmi : m < i1 := by
        have := hm
        simp only [List.length_take] at this
        omega
      have hmlen : m < L.cids.length := by omega
      have hlt : L.cids.getD m 0 < v := hall m hmi
      rw [List.getD_eq_getElem _ _ hmlen] at hlt
      have : (L.cids.take i1)[m] = L.cids[m] := List.getElem_take _
      rw [this]
      simp only [decide_eq_true_eq]
      omega
    rw [hd]
    omega
  set cnt : Nat := L.cids.countP (fun c => decide (c = v)) with hcnt
  have hdne : 1 ≤ d.length := by omega
  have hcnt1 : 1 ≤ cnt := by
    by_contra hcon
    have hc0 : cnt = 0 := by omega
    have hlt := hr3 (by omega)
    rw [← hcntd, hc0] at hlt
    have := hdget 0 (by omega)
    rw [Nat.add_zero] at this
    omega
  have hle : i1 + cnt ≤ L.cids.length := by
    rw [hcntd] at hcnt
    omega
  have hcov : ∀ m, m < cnt → L.cids.getD (i1 + m) 0 = v := by
    intro m hm
    rw [← hdget m (by omega)]
    exact hr1 m (by rw [← hcntd]; exact hm)
  have hend : i1 + cnt < L.cids.length → v < L.cids.getD (i1 + cnt) 0 := by
    intro hlt
    rw [← hdget cnt (by omega)]
    have h3 := hr3 (by rw [← hcntd]; omega)
    rw [← hcntd] at h3
    exact h3
  refine ⟨hcnt1, hle, hcov, hend, ?_⟩
  rw [leftMatches]
  apply filter_range_interval _ _ _ _ hle
  intro m hm
  simp only [decide_eq_true_eq]
  constructor
  · intro hmv
    constructor
    · by_contra hcon
      have := hall m (by omega)
      omega
    · by_contra hcon
      have h1 : i1 + cnt < L.cids.length := by omega
      have h2 := hend h1
      have h3 : L.cids.getD (i1 + cnt) 0 ≤ L.cids.getD m 0 :=
        sorted_getD_mono hs (by omega) hm
      omega
  · intro ⟨hm1, hm2⟩
    have := hcov (m - i1) (by omega)
    rw [show i1 + (m - i1) = m by omega] at this
    exact this

/-- Successful inner run scans emit exactly one row per index of the run of
the left context value. -/
theorem ciRun_spec (L R : WEP) (i j cnt : Nat)
    (hcov : ∀ m, m < cnt → L.cids.getD (i + m) 0 = L.cids.getD i 0)
    (hend : i + cnt ≤ L.cids.length)
    (hstop : i + cnt < L.cids.length → L.cids.getD (i + cnt) 0 ≠ L.cids.getD i 0)
    (k : Nat) (hk : k ≤ cnt) (rows : List Row4)
    (hres : ciRun L R i j k = some rows) :
    rows = (List.range' (i + k) (cnt - k)).map (pairRow L R j) := by
  rw [ciRun] at hres
  by_cases hik : i + k < L.cids.length
  · rw [dif_pos hik] at hres
    by_cases heq : L.cids.get ⟨i + k, hik⟩ = L.cids.getD i 0
    · rw [if_pos heq] at hres
      have hklt : k < cnt := by
        rcases Nat.eq_or_lt_of_le hk with rfl | h
        · exfalso
          apply hstop hik
          rw [List.getD_eq_getElem _ _ hik]
          rw [List.get_eq_getElem] at heq
          exact heq
        · exact h
      by_cases hg : L.cids.length ≤ k + 1
      · rw [dif_pos hg] at hres
        have hrows : rows =
            [(L.wids.getD (i + k) 0, R.cids.getD j 0, R.eids.getD j 0, R.scores.getD j 0)] :=
          (Option.some_inj.mp hres).symm
        have hcone : cnt - k = 1 := by omega
        rw [hcone, hrows]
        rfl
      · rw [dif_neg hg] at hres
        obtain ⟨rest, hrest, hrows⟩ := Option.map_eq_some'.mp hres
        have ih := ciRun_spec L R i j cnt hcov hend hstop (k + 1) (by omega) rest hrest
        rw [← hrows, ih]
        have hcone : cnt - k = (cnt - (k + 1)) + 1 := by omega
        rw [hcone, List.range'_succ]
        rfl
    · rw [if_neg heq] at hres
      have hcz : cnt ≤ k := by
        by_contra hcon
        apply heq
        have := hcov k (by omega)
        rw [List.getD_eq_getElem _ _ hik] at this
        rw [List.get_eq_getElem]
        exact this
      have : cnt - k = 0 := by omega
      rw [this]
      exact (Option.some_inj.mp hres).symm
  · rw [dif_neg hik] at hres
    exact absurd hres (by simp)
termination_by cnt - k

/-- Successful equality loops consume exactly the right-side run of the
matched context and emit the cross-product of that run with the left run. -/
theorem ciEq_spec (L R : WEP) (i cnt : Nat)
    (hcov : ∀ m, m < cnt → L.cids.getD (i + m) 0 = L.cids.getD i 0)
    (hend : i + cnt ≤ L.cids.length)
    (hstop : i + cnt < L.cids.length → L.cids.getD (i + cnt) 0 ≠ L.cids.getD i 0)
    (j : Nat) (hj : j < R.cids.length) (res : List Row4) (j2 : Nat)
    (hres : ciEq L R i j = some (res, j2)) :
    j ≤ j2 ∧ j2 ≤ R.cids.length ∧
      (∀ jj, j ≤ jj → jj < j2 → R.cids.getD jj 0 = L.cids.getD i 0) ∧
      (j2 < R.cids.length → R.cids.getD j2 0 ≠ L.cids.getD i 0) ∧
      res = (List.range' j (j2 - j)).flatMap
        (fun jj => (List.range' i cnt).map (pairRow L R jj)) := by
  rw [ciEq] at hres
  by_cases heq : L.cids.getD i 0 = R.cids.getD j 0
  · rw [if_pos heq] at hres
    split at hres
    · exact absurd hres (by simp)
    · rename_i rows hrun
      have hrows := ciRun_spec L R i j cnt hcov hend hstop 0 (Nat.zero_le _) rows hrun
      rw [Nat.add_zero, Nat.sub_zero] at hrows
      by_cases hjl : R.cids.length ≤ j + 1
      · rw [dif_pos hjl] at hres
        obtain ⟨hres1, hres2⟩ := Prod.mk.injEq .. ▸ Option.some_inj.mp hres
        subst hres1
        subst hres2
        refine ⟨by omega, by omega, ?_, by omega, ?_⟩
        · intro jj hjj1 hjj2
          have : jj = j := by omega
          subst this
          exact heq.symm
        · rw [show j + 1 - j = 1 by omega]
          rw [List.range'_one]
          simp only [List.flatMap_cons, List.flatMap_nil, List.append_nil]
          exact hrows
      · rw [dif_neg hjl] at hres
        split at hres
        · exact absurd hres (by simp)
        · rename_i rs j2' hrec
          obtain ⟨hres1, hres2⟩ := Prod.mk.injEq .. ▸ Option.some_inj.mp hres
          subst hres1
          rw [hres2] at hrec
          obtain ⟨ih1, ih2, ih3, ih4, ih5⟩ :=
            ciEq_spec L R i cnt hcov hend hstop (j + 1) (by omega) rs j2 hrec
          refine ⟨by omega, ih2, ?_, ih4, ?_⟩
          · intro jj hjj1 hjj2
            rcases Nat.eq_or_lt_of_le hjj1 with rfl | h
            · exact heq.symm
            · exact ih3 jj (by omega) hjj2
          · rw [show j2 - j = (j2 - (j + 1)) + 1 by omega, List.range'_succ]
            simp only [List.flatMap_cons]
            rw [← hrows, ← ih5]
  · rw [if_neg heq] at hres
    obtain ⟨hres1, hres2⟩ := Prod.mk.injEq .. ▸ Option.some_inj.mp hres
    subst hres1
    subst hres2
    refine ⟨Nat.le_refl _, Nat.le_of_lt hj, by omega, ?_, by simp⟩
    intro _ hc
    exact heq hc.symm
termination_by R.cids.length - j

theorem flatMap_congr_mem {α β : Type} (l : List α) (f g : α → List β)
    (h : ∀ x ∈ l, f x = g x) : l.flatMap f = l.flatMap g := by
  induction l with
  | nil => rfl
  | cons a l ih =>
    rw [List.flatMap_cons, List.flatMap_cons, h a (by simp),
      ih (fun x hx => h x (by simp [hx]))]

theorem leftMatches_eq_nil (L : WEP) (w : Nat)
    (h : ∀ m, m < L.cids.length → L.cids.getD m 0 ≠ w) :
    leftMatches L w = [] := by
  rw [leftMatches, List.filter_eq_nil_iff]
  intro m hm
  rw [List.mem_range] at hm
  simp only [decide_eq_true_eq]
  exact h m hm

theorem crossRowsFrom_nil (L R : WEP) (j : Nat)
    (h : ∀ jj, j ≤ jj → jj < R.cids.length → leftMatches L (R.cids.getD jj 0) = []) :
    crossRowsFrom L R j = [] := by
  rw [crossRowsFrom, List.flatMap_eq_nil_iff]
  intro jj hjj
  rw [List.mem_range'] at hjj
  obtain ⟨idx, hidx, rfl⟩ := hjj
  rw [h _ (by omega) (by omega)]
  rfl

theorem crossRowsFrom_split (L R : WEP) (j j' : Nat) (h1 : j ≤ j')
    (h2 : j' ≤ R.cids.length) :
    crossRowsFrom L R j =
      ((List.range' j (j' - j)).flatMap
        (fun jj => (leftMatches L (R.cids.getD jj 0)).map (pairRow L R jj))) ++
        crossRowsFrom L R j' := by
  rw [crossRowsFrom, crossRowsFrom, ← List.flatMap_append]
  have e := List.range'_append j (j' - j) (R.cids.length - j') 1
  rw [show j + 1 * (j' - j) = j' by omega,
    show R.cids.length - j' + (j' - j) = R.cids.length - j by omega] at e
  rw [e]

/-- Main loop characterization: a successful run of the crossIntersect outer
loop from state (i, j) emits exactly the per-context cross-product of the
remaining right rows, provided everything before index i on the left is
strictly below everything from index j on on the right. -/
theorem ciOuter_spec (L R : WEP) (hL : L.cids.Sorted (· ≤ ·))
    (hR : R.cids.Sorted (· ≤ ·)) :
    ∀ n i j, L.cids.length - i ≤ n → j ≤ R.cids.length →
      (∀ m, m < i → ∀ jj, j ≤ jj → jj < R.cids.length →
        L.cids.getD m 0 < R.cids.getD jj 0) →
      ∀ out, ciOuter L R i j = some out → out = crossRowsFrom L R j := by
  intro n
  induction n with
  | zero =>
    intro i j hn hj hinv out hout
    have hc : ¬ (i < L.cids.length ∧ j < R.cids.length) := by omega
    rw [ciOuter, dif_neg hc] at hout
    have hout2 : out = [] := (Option.some_inj.mp hout).symm
    subst hout2
    symm
    apply crossRowsFrom_nil
    intro jj hjj1 hjj2
    apply leftMatches_eq_nil
    intro m hm
    exact Nat.ne_of_lt (hinv m (by omega) jj hjj1 hjj2)
  | succ n ih =>
    intro i j hn hj hinv out hout
    by_cases hcond : i < L.cids.length ∧ j < R.cids.length
    case neg =>
      rw [ciOuter, dif_neg hcond] at hout
      have hout2 : out = [] := (Option.some_inj.mp hout).symm
      subst hout2
      symm
      by_cases hjR : j < R.cids.length
      · have hiL : ¬ i < L.cids.length := fun h => hcond ⟨h, hjR⟩
        apply crossRowsFrom_nil
        intro jj hjj1 hjj2
        apply leftMatches_eq_nil
        intro m hm
        exact Nat.ne_of_lt (hinv m (by omega) jj hjj1 hjj2)
      · rw [crossRowsFrom, show R.cids.length - j = 0 by omega]
        rfl
    case pos =>
      obtain ⟨hiL, hjR⟩ := hcond
      rw [ciOuter, dif_pos ⟨hiL, hjR⟩] at hout
      simp only [] at hout
      set i1 := skipLow L.cids (R.cids.getD j 0) i with hi1def
      have hii1 : i ≤ i1 := skipLow_ge _ _ _ (by omega)
      have hi1len : i1 ≤ L.cids.length := skipLow_le_length _ _ _
      have hskipL : ∀ m, i ≤ m → m < i1 → L.cids.getD m 0 < R.cids.getD j 0 :=
        fun m h1 h2 => skipLow_skipped _ _ _ m h1 h2
      by_cases hL1 : i1 < L.cids.length
      case neg =>
        rw [dif_neg hL1] at hout
        have hout2 : out = [] := (Option.some_inj.mp hout).symm
        subst hout2
        symm
        apply crossRowsFrom_nil
        intro jj hjj1 hjj2
        apply leftMatches_eq_nil
        intro m hm
        apply Nat.ne_of_lt
        by_cases hmi : m < i
        · exact hinv m hmi jj hjj1 hjj2
        · calc L.cids.getD m 0 < R.cids.getD j 0 := hskipL m (by omega) (by omega)
          _ ≤ R.cids.getD jj 0 := sorted_getD_mono hR hjj1 hjj2
      case pos =>
        rw [dif_pos hL1] at hout
        set j1 := skipLow R.cids (L.cids.getD i1 0) j with hj1def
        have hjj1le : j ≤ j1 := skipLow_ge _ _ _ (by omega)
        have hj1len : j1 ≤ R.cids.length := skipLow_le_length _ _ _
        have hskipR : ∀ jj, j ≤ jj → jj < j1 → R.cids.getD jj 0 < L.cids.getD i1 0 :=
          fun jj h1 h2 => skipLow_skipped _ _ _ jj h1 h2
        by_cases hR1 : j1 < R.cids.length
        case neg =>
          rw [dif_neg hR1] at hout
          have hout2 : out = [] := (Option.some_inj.mp hout).symm
          subst hout2
          symm
          apply crossRowsFrom_nil
          intro jj hjj1 hjj2
          apply leftMatches_eq_nil
          intro m hm
          have hjlt : R.cids.getD jj 0 < L.cids.getD i1 0 := hskipR jj hjj1 (by omega)
          by_cases hmi : m < i
          · exact Nat.ne_of_lt (hinv m hmi jj hjj1 hjj2)
          · by_cases hmi1 : m < i1
            · apply Nat.ne_of_lt
              calc L.cids.getD m 0 < R.cids.getD j 0 := hskipL m (by omega) hmi1
                _ ≤ R.cids.getD jj 0 := sorted_getD_mono hR hjj1 hjj2
            · apply Nat.ne_of_gt
              have h1 : L.cids.getD i1 0 ≤ L.cids.getD m 0 :=
                sorted_getD_mono hL (by omega) hm
              omega
        case pos =>
          rw [dif_pos hR1] at hout
          -- the segment of right indices below j1 pairs with nothing
          have hseg1 : ∀ jj, j ≤ jj → jj < j1 →
              leftMatches L (R.cids.getD jj 0) = [] := by
            intro jj hjjl hjju
            apply leftMatches_eq_nil
            intro m hm
            have hjlt : R.cids.getD jj 0 < L.cids.getD i1 0 := hskipR jj hjjl hjju
            by_cases hmi : m < i
            · exact Nat.ne_of_lt (hinv m hmi jj hjjl (by omega))
            · by_cases hmi1 : m < i1
              · apply Nat.ne_of_lt
                calc L.cids.getD m 0 < R.cids.getD j 0 := hskipL m (by omega) hmi1
                  _ ≤ R.cids.getD jj 0 := sorted_getD_mono hR hjjl (by omega)
              · apply Nat.ne_of_gt
                have h1 : L.cids.getD i1 0 ≤ L.cids.getD m 0 :=
                  sorted_getD_mono hL (by omega) hm
                omega
          have hsplit1 := crossRowsFrom_split L R j j1 hjj1le hj1len
          have hseg1nil : (List.range' j (j1 - j)).flatMap
              (fun jj => (leftMatches L (R.cids.getD jj 0)).map (pairRow L R jj)) = [] := by
            rw [List.flatMap_eq_nil_iff]
            intro jj hjj
            rw [List.mem_range'] at hjj
            obtain ⟨idx, hidx, rfl⟩ := hjj
            rw [hseg1 _ (by omega) (by omega)]
            rfl
          split at hout
          · exact absurd hout (by simp)
          · rename_i rows j2 hciEq
            split at hout
            · exact absurd hout (by simp)
            · rename_i rest hrec
              have hout2 : out = rows ++ rest := (Option.some_inj.mp hout).symm
              subst hout2
              by_cases hv : L.cids.getD i1 0 = R.cids.getD j1 0
              · -- matched context: left run facts
                have hall : ∀ m, m < i1 → L.cids.getD m 0 < L.cids.getD i1 0 := by
                  intro m hm
                  by_cases hmi : m < i
                  · have := hinv m hmi j1 hjj1le hR1
                    omega
                  · have h1 := hskipL m (by omega) hm
                    have h2 : R.cids.getD j 0 ≤ R.cids.getD j1 0 :=
                      sorted_getD_mono hR hjj1le hR1
                    omega
                obtain ⟨hcnt1, hle, hcov, hend, hmatches⟩ :=
                  leftRun L hL (L.cids.getD i1 0) i1 hL1 rfl hall
                have hstop : i1 + L.cids.countP (fun c => decide (c = L.cids.getD i1 0)) <
                    L.cids.length →
                    L.cids.getD (i1 + L.cids.countP (fun c => decide (c = L.cids.getD i1 0))) 0 ≠
                      L.cids.getD i1 0 := by
                  intro hlt
                  have := hend hlt
                  omega
                obtain ⟨e1, e2, e3, e4, e5⟩ :=
                  ciEq_spec L R i1 (L.cids.countP (fun c => decide (c = L.cids.getD i1 0)))
                    hcov hle hstop j1 hR1 rows j2 hciEq
                have hvj2 : j2 < R.cids.length → L.cids.getD i1 0 < R.cids.getD j2 0 := by
                  intro hlt
                  have hge : R.cids.getD j1 0 ≤ R.cids.getD j2 0 :=
                    sorted_getD_mono hR e1 hlt
                  have hne := e4 hlt
                  omega
                have hrest : rest = crossRowsFrom L R j2 := by
                  apply ih (i1 + 1) j2 (by omega) e2 _ rest hrec
                  intro m hm jj hjjl hjju
                  have h1 : L.cids.getD m 0 ≤ L.cids.getD i1 0 :=
                    sorted_getD_mono hL (by omega) hL1
                  have h2 : L.cids.getD i1 0 < R.cids.getD jj 0 := by
                    have h3 := hvj2 (by omega)
                    have h4 : R.cids.getD j2 0 ≤ R.cids.getD jj 0 :=
                      sorted_getD_mono hR hjjl hjju
                    omega
                  omega
                have hsplit2 := crossRowsFrom_split L R j1 j2 e1 e2
                have hseg2 : (List.range' j1 (j2 - j1)).flatMap
                    (fun jj => (leftMatches L (R.cids.getD jj 0)).map (pairRow L R jj)) =
                    rows := by
                  rw [e5]
                  apply flatMap_congr_mem
                  intro jj hjj
                  rw [List.mem_range'] at hjj
                  obtain ⟨idx, hidx, rfl⟩ := hjj
                  rw [e3 _ (by omega) (by omega), hmatches]
                rw [hsplit1, hseg1nil, List.nil_append, hsplit2, hseg2, hrest]
              · -- no match: the equality loop is a no-op
                rw [ciEq, if_neg hv] at hciEq
                obtain ⟨hrows, hj2⟩ := Prod.mk.injEq .. ▸ Option.some_inj.mp hciEq
                subst hrows
                rw [← hj2] at hrec
                have hvgt : L.cids.getD i1 0 < R.cids.getD j1 0 := by
                  have hge : L.cids.getD i1 0 ≤ R.cids.getD j1 0 := by
                    rw [hj1def]
                    exact skipLow_stop _ _ _ (by rw [← hj1def]; exact hR1)
                  omega
                have hrest : rest = crossRowsFrom L R j1 := by
                  apply ih (i1 + 1) j1 (by omega) (by omega) _ rest hrec
                  intro m hm jj hjjl hjju
                  have h2 : R.cids.getD j1 0 ≤ R.cids.getD jj 0 :=
                    sorted_getD_mono hR hjjl hjju
                  have h1 : L.cids.getD m 0 ≤ L.cids.getD i1 0 :=
                    sorted_getD_mono hL (by omega) hL1
                  omega
                rw [hrest, List.nil_append, hsplit1, hseg1nil, List.nil_append]

/-- Successful runs of crossIntersect produce exactly the per-context
cross-product rows. -/
theorem crossIntersect_spec (L R : WEP) (hL : L.cids.Sorted (· ≤ ·))
    (hR : R.cids.Sorted (· ≤ ·)) (out : WEP)
    (hres : crossIntersect L R = some out) :
    out = wepOfRows (crossRows L R) := by
  rw [crossIntersect] at hres
  by_cases he : L.cids.isEmpty ∨ R.cids.isEmpty
  · rw [if_pos he] at hres
    have hout : out = WEP.emptyWep := (Option.some_inj.mp hres).symm
    subst hout
    have hnil : crossRows L R = [] := by
      rcases he with he | he

      · apply crossRowsFrom_nil
        intro jj _ _
        apply leftMatches_eq_nil
        intro m hm
        rw [List.isEmpty_iff] at he
        rw [he] at hm
        exact absurd hm (by simp)
      · rw [List.isEmpty_iff] at he
        rw [crossRows, crossRowsFrom, he]
        rfl
    rw [hnil]
    rfl
  · rw [if_neg he] at hres
    obtain ⟨rows, hrows, hout⟩ := Option.map_eq_some'.mp hres
    have hch := ciOuter_spec L R hL hR L.cids.length 0 0 (by omega) (by omega)
      (fun m hm => absurd hm (Nat.not_lt_zero m)) rows hrows
    rw [← hout, hch]
    rfl

theorem sum_map_add_distrib (l : List Nat) (g h : Nat → Nat) :
    (l.map (fun x => g x + h x)).sum = (l.map g).sum + (l.map h).sum := by
  induction l with
  | nil => rfl
  | cons a l ih =>
    simp only [List.map_cons, List.sum_cons, ih]
    omega

theorem sum_map_single_zero (l : List Nat) (a : Nat) (f : Nat → Nat)
    (ha : a ∉ l) : (l.map (fun v => if a = v then f v else 0)).sum = 0 := by
  induction l with
  | nil => rfl
  | cons b l ih =>
    simp only [List.map_cons, List.sum_cons]
    rw [if_neg (by intro hc; exact ha (by simp [hc]))]
    rw [ih (fun hc => ha (by simp [hc]))]

theorem sum_map_single (l : List Nat) (a : Nat) (f : Nat → Nat)
    (hnd : l.Nodup) (ha : a ∈ l) :
    (l.map (fun v => if a = v then f v else 0)).sum = f a := by
  induction l with
  | nil => exact absurd ha (by simp)
  | cons b l ih =>
    simp only [List.map_cons, List.sum_cons]
    by_cases hab : a = b
    · subst hab
      rw [if_pos rfl, sum_map_single_zero l a f (by simp at hnd; exact hnd.1)]
      omega
    · have hal : a ∈ l := by
        rcases List.mem_cons.mp ha with rfl | h
        · exact absurd rfl hab
        · exact h
      rw [if_neg hab, ih (by simp at hnd; exact hnd.2) hal]
      omega

/-- Sum of a pointwise function over a list, rewritten as the sum over the
distinct values weighted by multiplicity. -/
theorem sum_map_eq_dedup_sum (l : List Nat) (f : Nat → Nat) :
    (l.map f).sum =
      (l.dedup.map (fun v => l.countP (fun c => decide (c = v)) * f v)).sum := by
  induction l with
  | nil => rfl
  | cons a l ih =>
    simp only [List.map_cons, List.sum_cons]
    have hcnt : ∀ v, (a :: l).countP (fun c => decide (c = v)) =
        l.countP (fun c => decide (c = v)) + (if a = v then 1 else 0) := by
      intro v
      rw [List.countP_cons]
      by_cases hav : a = v
      · rw [if_pos hav, if_pos (by simp [hav])]
      · rw [if_neg hav, if_neg (by simp [hav])]
    by_cases hmem : a ∈ l
    · rw [List.dedup_cons_of_mem hmem]
      have hcong : l.dedup.map
          (fun v => (a :: l).countP (fun c => decide (c = v)) * f v) =
          l.dedup.map (fun v => l.countP (fun c => decide (c = v)) * f v +
            (if a = v then f v else 0)) := by
        apply List.map_congr_left
        intro v _
        rw [hcnt v]
        by_cases hav : a = v
        · rw [if_pos hav, if_pos hav]
          ring
        · rw [if_neg hav, if_neg hav]
          ring
      rw [hcong, sum_map_add_distrib,
        sum_map_single l.dedup a f (List.nodup_dedup l) (List.mem_dedup.mpr hmem), ← ih]
      omega
    · rw [List.dedup_cons_of_not_mem hmem]
      simp only [List.map_cons, List.sum_cons]
      have h1 : (a :: l).countP (fun c => decide (c = a)) = 1 := by
        rw [hcnt a, if_pos rfl]
        have : l.countP (fun c => decide (c = a)) = 0 := by
          rw [List.countP_eq_zero]
          intro x hx
          simp only [decide_eq_true_eq]
          intro hc
          exact hmem (hc ▸ hx)
        omega
      have hcong : l.dedup.map
          (fun v => (a :: l).countP (fun c => decide (c = v)) * f v) =
          l.dedup.map (fun v => l.countP (fun c => decide (c = v)) * f v) := by
        apply List.map_congr_left
        intro v hv
        rw [hcnt v, if_neg (by
          intro hc
          exact hmem (List.mem_dedup.mp (hc ▸ hv)))]
        ring
      rw [h1, hcong, ← ih]
      omega

theorem sum_map_filter_zero (l : List Nat) (f : Nat → Nat) (q : Nat → Bool)
    (h : ∀ v ∈ l, q v = false → f v = 0) :
    (l.map f).sum = ((l.filter q).map f).sum := by
  induction l with
  | nil => rfl
  | cons a l ih =>
    rw [List.map_cons, List.sum_cons, List.filter_cons]
    by_cases hq : q a = true
    · rw [if_pos hq, List.map_cons, List.sum_cons,
        ih (fun v hv => h v (by simp [hv]))]
    · rw [if_neg hq, h a (by simp) (by simpa using hq),
        ih (fun v hv => h v (by simp [hv]))]
      omega

theorem self_eq_range_map_getD (l : List Nat) :
    (List.range l.length).map (fun m => l.getD m 0) = l := by
  apply List.ext_getElem
  · simp
  · intro i h1 h2
    rw [List.getElem_map, List.getElem_range, List.getD_eq_getElem _ _ h2]

theorem leftMatches_length (L : WEP) (v : Nat) :
    (leftMatches L v).length = L.cids.countP (fun c => decide (c = v)) := by
  rw [leftMatches, ← List.countP_eq_length_filter]
  conv_rhs => rw [← self_eq_range_map_getD L.cids]
  rw [List.countP_map]
  rfl

/-- Length of the cross-product rows: the sum, over the context values
common to both sides, of the product of the two run lengths. -/
theorem crossRows_length (L R : WEP) :
    (crossRows L R).length =
      ((R.cids.dedup.filter (fun v => decide (v ∈ L.cids))).map
        (fun v => L.cids.countP (fun c => decide (c = v)) *
          R.cids.countP (fun c => decide (c = v)))).sum := by
  rw [crossRows, crossRowsFrom, Nat.sub_zero, List.length_flatMap]
  have h1 : (List.map
      (List.length ∘ fun jj => (leftMatches L (R.cids.getD jj 0)).map (pairRow L R jj))
      (List.range' 0 R.cids.length)).sum =
      (R.cids.map (fun v => L.cids.countP (fun c => decide (c = v)))).sum := by
    rw [← List.range_eq_range']
    have h2 : List.map
        (List.length ∘ fun jj => (leftMatches L (R.cids.getD jj 0)).map (pairRow L R jj))
        (List.range R.cids.length) =
        List.map ((fun v => L.cids.countP (fun c => decide (c = v))) ∘
          (fun m => R.cids.getD m 0)) (List.range R.cids.length) := by
      apply List.map_congr_left
      intro jj _
      simp only [Function.comp_apply, List.length_map]
      exact leftMatches_length L (R.cids.getD jj 0)
    rw [h2, ← List.map_map, self_eq_range_map_getD]
  rw [h1, sum_map_eq_dedup_sum]
  rw [sum_map_filter_zero _ _ (fun v => decide (v ∈ L.cids)) ?_]
  · apply congrArg
    apply List.map_congr_left
    intro v _
    ring
  · intro v _ hq
    have hnot : v ∉ L.cids := by simpa using hq
    have : L.cids.countP (fun c => decide (c = v)) = 0 := by
      rw [List.countP_eq_zero]
      intro x hx
      simp only [decide_eq_true_eq]
      intro hc
      exact hnot (hc ▸ hx)
    rw [this]
    ring

theorem crossRows_cids (L R : WEP) :
    (wepOfRows (crossRows L R)).cids =
      (List.range' 0 R.cids.length).flatMap
        (fun jj => List.replicate (leftMatches L (R.cids.getD jj 0)).length
          (R.cids.getD jj 0)) := by
  show (crossRows L R).map (fun r => r.2.1) = _
  rw [crossRows, crossRowsFrom, Nat.sub_zero, List.map_flatMap]
  apply flatMap_congr_mem
  intro jj _
  rw [List.map_map]
  have : ((fun r : Row4 => r.2.1) ∘ pairRow L R jj) =
      (fun _ => R.cids.getD jj 0) := rfl
  rw [this, List.map_const']

theorem crossRows_cids_sorted (L R : WEP) (hR : R.cids.Sorted (· ≤ ·)) :
    (wepOfRows (crossRows L R)).cids.Sorted (· ≤ ·) := by
  rw [crossRows_cids, List.flatMap_def]
  apply List.pairwise_flatten.mpr
  refine ⟨?_, ?_⟩
  · intro l' hl'
    rw [List.mem_map] at hl'
    obtain ⟨jj, _, rfl⟩ := hl'
    exact List.pairwise_replicate.mpr (Or.inr (Nat.le_refl _))
  · rw [List.pairwise_map]
    have hplt : (List.range' 0 R.cids.length).Pairwise (· < ·) := by
      rw [List.pairwise_iff_getElem]
      intro a b ha hb hab
      rw [List.getElem_range', List.getElem_range']
      omega
    apply List.Pairwise.imp_of_mem _ hplt
    intro a b hma hmb hab x hx y hy
    rw [List.mem_replicate] at hx hy
    rw [List.mem_range'] at hma hmb
    obtain ⟨ia, hia, rfl⟩ := hma
    obtain ⟨ib, hib, rfl⟩ := hmb
    rw [hx.2, hy.2]
    exact sorted_getD_mono hR (by omega) (by omega)

theorem crossRows_cids_mem (L R : WEP) (x : Nat)
    (hx : x ∈ (wepOfRows (crossRows L R)).cids) : x ∈ L.cids ∧ x ∈ R.cids := by
  rw [crossRows_cids, List.mem_flatMap] at hx
  obtain ⟨jj, hjj, hxr⟩ := hx
  rw [List.mem_range'] at hjj
  obtain ⟨idx, hidx, rfl⟩ := hjj
  rw [List.mem_replicate] at hxr
  obtain ⟨hne, rfl⟩ := hxr
  have hjlt : 0 + 1 * idx < R.cids.length := by omega
  constructor
  · have hnil : leftMatches L (R.cids.getD (0 + 1 * idx) 0) ≠ [] := by
      intro hc
      rw [hc] at hne
      exact hne rfl
    obtain ⟨m, hm⟩ := List.exists_mem_of_ne_nil _ hnil
    rw [leftMatches, List.mem_filter, List.mem_range] at hm
    obtain ⟨hmlen, hmv⟩ := hm
    simp only [decide_eq_true_eq] at hmv
    rw [← hmv, List.getD_eq_getElem _ _ hmlen]
    exact List.getElem_mem hmlen
  · rw [List.getD_eq_getElem _ _ hjlt]
    exact List.getElem_mem hjlt

/-! Aggregators. std::set is modelled as a strictly-sorted duplicate-free
list whose head is begin(), i.e. the minimum; ad_utility::HashMap is
modelled as an association list in key-insertion order. -/

/-- Lookup in an association list (first entry wins). -/
def alookup {κ β : Type} [DecidableEq κ] : List (κ × β) → κ → Option β
  | [], _ => none
  | (a, b) :: rest, e => if a = e then some b else alookup rest e

/-- Update of an association list: apply f to the entry of key e, or append
(e, init) if the key is absent (hash map operator[] semantics). -/
def alUpdate {κ β : Type} [DecidableEq κ] (m : List (κ × β)) (e : κ) (f : β → β)
    (init : β) : List (κ × β) :=
  match m with
  | [] => [(e, init)]
  | (a, b) :: rest =>
    if a = e then (a, f b) :: rest
    else (a, b) :: alUpdate rest e f init

theorem alookup_alUpdate_self {κ β : Type} [DecidableEq κ] (m : List (κ × β))
    (e : κ) (f : β → β) (init : β) :
    alookup (alUpdate m e f init) e =
      some (match alookup m e with | some v => f v | none => init) := by
  induction m with
  | nil => simp [alookup, alUpdate]
  | cons p rest ih =>
    obtain ⟨a, b⟩ := p
    by_cases hae : a = e
    · subst hae
      simp [alookup, alUpdate]
    · simp only [alookup, alUpdate, if_neg hae]
      exact ih

theorem alookup_alUpdate_ne {κ β : Type} [DecidableEq κ] (m : List (κ × β))
    (e e' : κ) (f : β → β) (init : β) (h : e' ≠ e) :
    alookup (alUpdate m e f init) e' = alookup m e' := by
  induction m with
  | nil =>
    simp only [alUpdate, alookup]
    rw [if_neg (fun hc => h hc.symm)]
  | cons p rest ih =>
    obtain ⟨a, b⟩ := p
    by_cases hae : a = e
    · subst hae
      simp only [alUpdate, eq_self_iff_true, if_true, alookup]
      rw [if_neg (fun hc => h hc.symm), if_neg (fun hc => h hc.symm)]
    · simp only [alUpdate, if_neg hae, alookup]
      by_cases hae' : a = e'
      · rw [if_pos hae', if_pos hae']
      · rw [if_neg hae', if_neg hae']
        exact ih

theorem alUpdate_keys_sub {κ β : Type} [DecidableEq κ] (m : List (κ × β))
    (e : κ) (f : β → β) (init : β) :
    ∀ x ∈ alUpdate m e f init, x.1 = e ∨ x.1 ∈ m.map Prod.fst := by
  induction m with
  | nil =>
    intro x hx
    simp [alUpdate] at hx
    simp [hx]
  | cons q tl ihq =>
    intro x hx
    obtain ⟨a', b'⟩ := q
    by_cases ha' : a' = e
    · subst ha'
      simp only [alUpdate, if_pos rfl] at hx
      rcases List.mem_cons.mp hx with rfl | hx'
      · simp
      · simp only [List.map_cons, List.mem_cons]
        exact Or.inr (Or.inr (List.mem_map_of_mem Prod.fst hx'))
    · simp only [alUpdate, if_neg ha'] at hx
      rcases List.mem_cons.mp hx with rfl | hx'
      · simp
      · rcases ihq x hx' with h1 | h1
        · exact Or.inl h1
        · simp only [List.map_cons, List.mem_cons]
          exact Or.inr (Or.inr h1)

theorem alUpdate_keys_nodup {κ β : Type} [DecidableEq κ] (m : List (κ × β))
    (e : κ) (f : β → β) (init : β) (h : (m.map Prod.fst).Nodup) :
    ((alUpdate m e f init).map Prod.fst).Nodup := by
  induction m with
  | nil => simp [alUpdate]
  | cons p rest ih =>
    obtain ⟨a, b⟩ := p
    simp only [List.map_cons, List.nodup_cons] at h
    by_cases hae : a = e
    · subst hae
      simp only [alUpdate, eq_self_iff_true, if_true, List.map_cons, List.nodup_cons]
      exact h
    · simp only [alUpdate, if_neg hae, List.map_cons, List.nodup_cons]
      refine ⟨?_, ih h.2⟩
      intro hc
      rw [List.mem_map] at hc
      obtain ⟨x, hx, hxa⟩ := hc
      rcases alUpdate_keys_sub rest e f init x hx with h1 | h1
      · rw [← hxa, h1] at hae
        exact hae rfl
      · rw [← hxa] at h
        exact h.1 h1

/-- Strict lexicographic order on (score, contextId) pairs, the order of
std::set of pair(Score, TextRecordIndex). -/
def pairLtb (a b : Nat × Nat) : Bool :=
  a.1 < b.1 || (a.1 == b.1 && a.2 < b.2)

/-- Ordered insertion into the strictly-sorted list modelling std::set of
(score, contextId); inserting a present element is a no-op. -/
def stcInsert (x : Nat × Nat) : List (Nat × Nat) → List (Nat × Nat)
  | [] => [x]
  | y :: ys =>
    if pairLtb x y then x :: y :: ys
    else if x = y then y :: ys
    else y :: stcInsert x ys

/-- One posting's update of a per-entity state (count, ordered set), as the
k>1 branch of aggScoresAndTakeTopKContexts (3-column version) performs it:
the count always increments; the (score, context) pair is inserted when the
set is below capacity or its minimum (begin(), the head) scores strictly
below the posting, evicting the minimum at capacity. -/
def aggStep (k : Nat) (st : Nat × List (Nat × Nat)) (s c : Nat) :
    Nat × List (Nat × Nat) :=
  (st.1 + 1,
    if st.2.length < k ∨ (st.2.headD (0, 0)).1 < s then
      stcInsert (s, c) (if st.2.length = k then st.2.tail else st.2)
    else st.2)

/-- One posting's update of a per-entity state of the k = 1 fast path
(aggScoresAndTakeTopContext, 3-column version): count increments, the best
(context, score) is replaced on a strictly greater score. -/
def aggTopStep (st : Nat × (Nat × Nat)) (c s : Nat) : Nat × (Nat × Nat) :=
  (st.1 + 1, if st.2.2 < s then (c, s) else st.2)

/-- The k>1 aggregation map of aggScoresAndTakeTopKContexts (3-column
version) over (cid, eid, score) postings. -/
def aggMapK (k : Nat) (ps : List (Nat × Nat × Nat)) :
    List (Nat × (Nat × List (Nat × Nat))) :=
  ps.foldl (fun m p =>
    alUpdate m p.2.1 (fun st => aggStep k st p.2.2 p.1) (1, [(p.2.2, p.1)])) []

/-- The aggregation map of the k = 1 fast path, 3-column version. -/
def aggTopMap (ps : List (Nat × Nat × Nat)) : List (Nat × (Nat × (Nat × Nat))) :=
  ps.foldl (fun m p =>
    alUpdate m p.2.1 (fun st => aggTopStep st p.1 p.2.2) (1, (p.1, p.2.2))) []

/-- The k>1 aggregation map of oneVarFilterAggScoresAndTakeTopKContexts
(filter-set version): identical to aggMapK but a posting contributes only
when its entity is in the filter set. -/
def aggMapKFiltered (fSet : List Nat) (k : Nat) (ps : List (Nat × Nat × Nat)) :
    List (Nat × (Nat × List (Nat × Nat))) :=
  ps.foldl (fun m p =>
    if p.2.1 ∈ fSet then
      alUpdate m p.2.1 (fun st => aggStep k st p.2.2 p.1) (1, [(p.2.2, p.1)])
    else m) []

/-- Emission of the k>1 aggregation map: per entity, the ordered set in
reverse (descending) order, rows (contextId, entityScore, entityId). -/
def aggKRows (k : Nat) (ps : List (Nat × Nat × Nat)) : List (Nat × Nat × Nat) :=
  (aggMapK k ps).flatMap (fun ent =>
    ent.2.2.reverse.map (fun sc => (sc.2, ent.2.1, ent.1)))

/-- Emission of the k = 1 fast path: rows (contextId, entityScore, entityId). -/
def aggTopRows (ps : List (Nat × Nat × Nat)) : List (Nat × Nat × Nat) :=
  (aggTopMap ps).map (fun ent => (ent.2.2.1, ent.2.1, ent.1))

/-- FTSAlgorithms::aggScoresAndTakeTopKContexts (cids/eids/scores version):
the two AD_CHECK_EQs at entry (none on failure), then the k = 1 fast path or
the ordered-set path. Map iteration is modelled in key-insertion order. -/
def aggScoresAndTakeTopKContexts (cids eids scores : List Nat) (k : Nat) :
    Option (List (Nat × Nat × Nat)) :=
  if cids.length = eids.length ∧ cids.length = scores.length then
    some (if k = 1 then aggTopRows (cids.zip (eids.zip scores))
      else aggKRows k (cids.zip (eids.zip scores)))
  else none

/-- Emission of the filtered k>1 map, rows (contextId, entityScore,
entityId), as lines 1406-1415 of the source push them. -/
def aggKRowsFiltered (fSet : List Nat) (k : Nat) (ps : List (Nat × Nat × Nat)) :
    List (Nat × Nat × Nat) :=
  (aggMapKFiltered fSet k ps).flatMap (fun ent =>
    ent.2.2.reverse.map (fun sc => (sc.2, ent.2.1, ent.1)))

/-- FTSAlgorithms::oneVarFilterAggScoresAndTakeTopKContexts (filter-set
version): AD_CHECK_EQs, early return of an empty result on an empty posting
stream or empty filter, then the ordered-set path restricted to entities in
the filter (no k = 1 fast path exists in this variant). -/
def oneVarFilterAggScoresAndTakeTopKContexts (cids eids scores fSet : List Nat)
    (k : Nat) : Option (List (Nat × Nat × Nat)) :=
  if cids.length = eids.length ∧ cids.length = scores.length then
    if cids.length = 0 ∨ fSet.length = 0 then some []
    else some (aggKRowsFiltered fSet k (cids.zip (eids.zip scores)))
  else none

/-- Strict lexicographic order on (score, contextId, wordId) triples, the
order of std::set of tuple(Score, TextRecordIndex, WordIndex) in the
WEP version of the k>1 aggregator. -/
def tripLtb (a b : Nat × Nat × Nat) : Bool :=
  a.1 < b.1 || (a.1 == b.1 &&
    (a.2.1 < b.2.1 || (a.2.1 == b.2.1 && a.2.2 < b.2.2)))

/-- Ordered insertion into the strictly-sorted triple list. -/
def stcInsert3 (x : Nat × Nat × Nat) :
    List (Nat × Nat × Nat) → List (Nat × Nat × Nat)
  | [] => [x]
  | y :: ys =>
    if tripLtb x y then x :: y :: ys
    else if x = y then y :: ys
    else y :: stcInsert3 x ys

/-- One posting's update of a per-entity state of the k>1 branch of the WEP
version of aggScoresAndTakeTopKContexts: count always increments; the
(score, context, word) triple is inserted when the set is below capacity or
its minimum scores strictly below the posting, evicting the minimum. -/
def aggStep3 (k : Nat) (st : Nat × List (Nat × Nat × Nat)) (s c w : Nat) :
    Nat × List (Nat × Nat × Nat) :=
  (st.1 + 1,
    if st.2.length < k ∨ (st.2.headD (0, 0, 0)).1 < s then
      stcInsert3 (s, c, w) (if st.2.length = k then st.2.tail else st.2)
    else st.2)

/-- One posting's update of the k = 1 WEP fast path
(aggScoresAndTakeTopContext, WEP version): state (count, (cid, score, wid)),
replaced on a strictly greater score. -/
def aggTopStep3 (st : Nat × (Nat × Nat × Nat)) (c s w : Nat) :
    Nat × (Nat × Nat × Nat) :=
  (st.1 + 1, if st.2.2.1 < s then (c, s, w) else st.2)

/-- Postings of a WEP as (cid, eid, score, wid) tuples; the source loop runs
i over eids.size() and reads the four columns at i (the wids column is read
without a length check, modelled by getD). -/
def WEP.postings (wep : WEP) : List (Nat × Nat × Nat × Nat) :=
  (List.range wep.eids.length).map (fun i =>
    (wep.cids.getD i 0, wep.eids.getD i 0, wep.scores.getD i 0, wep.wids.getD i 0))

/-- The k>1 aggregation map of the WEP version of
aggScoresAndTakeTopKContexts. -/
def aggWepMapK (k : Nat) (ps : List (Nat × Nat × Nat × Nat)) :
    List (Nat × (Nat × List (Nat × Nat × Nat))) :=
  ps.foldl (fun m p =>
    alUpdate m p.2.1 (fun st => aggStep3 k st p.2.2.1 p.1 p.2.2.2)
      (1, [(p.2.2.1, p.1, p.2.2.2)])) []

/-- The aggregation map of the k = 1 WEP fast path. -/
def aggWepTopMap (ps : List (Nat × Nat × Nat × Nat)) :
    List (Nat × (Nat × (Nat × Nat × Nat))) :=
  ps.foldl (fun m p =>
    alUpdate m p.2.1 (fun st => aggTopStep3 st p.1 p.2.2.1 p.2.2.2)
      (1, (p.1, p.2.2.1, p.2.2.2))) []

/-- Emission of the WEP k>1 map: per entity, the ordered set in reverse
(descending) order, rows (contextId, entityScore, entityId, wordId). -/
def aggWepKRows (k : Nat) (ps : List (Nat × Nat × Nat × Nat)) :
    List (Nat × Nat × Nat × Nat) :=
  (aggWepMapK k ps).flatMap (fun ent =>
    ent.2.2.reverse.map (fun t => (t.2.1, ent.2.1, ent.1, t.2.2)))

/-- Emission of the WEP k = 1 fast path, rows (contextId, entityScore,
entityId, wordId). -/
def aggWepTopRows (ps : List (Nat × Nat × Nat × Nat)) :
    List (Nat × Nat × Nat × Nat) :=
  (aggWepTopMap ps).map (fun ent => (ent.2.2.1, ent.2.1, ent.1, ent.2.2.2.2))

/-- FTSAlgorithms::aggScoresAndTakeTopKContexts (WEP version, 4 output
columns): AD_CHECK_EQs on cids/eids and cids/scores (none on failure; the
wids column is not checked by the source), then the k = 1 fast path or the
ordered-set path over triples. -/
def aggScoresAndTakeTopKContextsWep (wep : WEP) (k : Nat) :
    Option (List (Nat × Nat × Nat × Nat)) :=
  if wep.cids.length = wep.eids.length ∧ wep.cids.length = wep.scores.length then
    some (if k = 1 then aggWepTopRows wep.postings
      else aggWepKRows k wep.postings)
  else none

/-- Distinct (entity, context) pairs of a WEP attributed to entity e, as the
claim counts them. -/
def distinctEntityContextPairs (wep : WEP) (e : Nat) : Nat :=
  (((wep.eids.zip wep.cids).filter (fun p => decide (p.1 = e))).dedup).length

/-- Count component of an entity's entry in the WEP k>1 map, zero when the
entity is absent. -/
def countOf3 (m : List (Nat × (Nat × List (Nat × Nat × Nat)))) (e : Nat) : Nat :=
  match alookup m e with
  | some st => st.1
  | none => 0

theorem alookup_of_mem_nodup {κ β : Type} [DecidableEq κ] (m : List (κ × β))
    (h : (m.map Prod.fst).Nodup) (e : κ) (v : β) (hm : (e, v) ∈ m) :
    alookup m e = some v := by
  induction m with
  | nil => exact absurd hm (by simp)
  | cons p rest ih =>
    obtain ⟨a, b⟩ := p
    simp only [List.map_cons, List.nodup_cons] at h
    rcases List.mem_cons.mp hm with heq | hm'
    · obtain ⟨rfl, rfl⟩ := Prod.mk.injEq .. ▸ heq
      simp [alookup]
    · have hne : a ≠ e := by
        intro hc
        subst hc
        exact h.1 (List.mem_map_of_mem Prod.fst hm')
      simp only [alookup, if_neg hne]
      exact ih h.2 hm'

theorem aggWepMapK_fold_count (k e : Nat) :
    ∀ (ps : List (Nat × Nat × Nat × Nat)) (m : List (Nat × (Nat × List (Nat × Nat × Nat)))),
      countOf3 (ps.foldl (fun m p =>
        alUpdate m p.2.1 (fun st => aggStep3 k st p.2.2.1 p.1 p.2.2.2)
          (1, [(p.2.2.1, p.1, p.2.2.2)])) m) e =
      countOf3 m e + ps.countP (fun p => decide (p.2.1 = e)) := by
  intro ps
  induction ps with
  | nil => intro m; simp
  | cons p ps ih =>
    intro m
    rw [List.foldl_cons, ih, List.countP_cons]
    have hstep : countOf3 (alUpdate m p.2.1
        (fun st => aggStep3 k st p.2.2.1 p.1 p.2.2.2) (1, [(p.2.2.1, p.1, p.2.2.2)])) e =
        countOf3 m e + (if p.2.1 = e then 1 else 0) := by
      by_cases hpe : p.2.1 = e
      · rw [if_pos hpe, countOf3, hpe, alookup_alUpdate_self]
        rw [countOf3]
        match halt : alookup m e with
        | some st => simp [halt, aggStep3]
        | none => simp [halt]
      · rw [if_neg hpe, countOf3, alookup_alUpdate_ne _ _ _ _ _ (fun hc => hpe hc.symm)]
        rw [countOf3]
        omega
    rw [hstep]
    have : (if decide (p.2.1 = e) = true then 1 else 0) =
        (if p.2.1 = e then 1 else 0) := by
      by_cases hpe : p.2.1 = e
      · rw [if_pos hpe, if_pos (by simp [hpe])]
      · rw [if_neg hpe, if_neg (by simp [hpe])]
    omega

theorem aggWepMapK_keys_nodup (k : Nat) :
    ∀ (ps : List (Nat × Nat × Nat × Nat)) (m : List (Nat × (Nat × List (Nat × Nat × Nat)))),
      (m.map Prod.fst).Nodup →
      (((ps.foldl (fun m p =>
        alUpdate m p.2.1 (fun st => aggStep3 k st p.2.2.1 p.1 p.2.2.2)
          (1, [(p.2.2.1, p.1, p.2.2.2)])) m)).map Prod.fst).Nodup := by
  intro ps
  induction ps with
  | nil => intro m hm; exact hm
  | cons p ps ih =>
    intro m hm
    rw [List.foldl_cons]
    exact ih _ (alUpdate_keys_nodup m _ _ _ hm)

theorem countP_postings_eids (wep : WEP) (e : Nat) :
    wep.postings.countP (fun p => decide (p.2.1 = e)) =
      wep.eids.countP (fun x => decide (x = e)) := by
  rw [WEP.postings, List.countP_map]
  conv_rhs => rw [← self_eq_range_map_getD wep.eids]
  rw [List.countP_map]
  rfl

/-- Per-entity group of the unfiltered 3-column aggregator: entityScore and
the ordered top-k (score, context) set; the k = 1 fast path's single best
context is viewed as a singleton set. -/
def aggGroups (cids eids scores : List Nat) (k e : Nat) :
    Option (Nat × List (Nat × Nat)) :=
  if k = 1 then
    (alookup (aggTopMap (cids.zip (eids.zip scores))) e).map
      (fun st => (st.1, [(st.2.2, st.2.1)]))
  else alookup (aggMapK k (cids.zip (eids.zip scores))) e

/-- Per-entity group of the filter-set aggregator. -/
def oneVarFilterAggGroups (cids eids scores fSet : List Nat) (k e : Nat) :
    Option (Nat × List (Nat × Nat)) :=
  alookup (aggMapKFiltered fSet k (cids.zip (eids.zip scores))) e

theorem filterFold_not_mem (fSet : List Nat) (k e : Nat) (hf : e ∉ fSet) :
    ∀ (ps : List (Nat × Nat × Nat)) (m : List (Nat × (Nat × List (Nat × Nat)))),
      alookup m e = none →
      alookup (ps.foldl (fun m p =>
        if p.2.1 ∈ fSet then
          alUpdate m p.2.1 (fun st => aggStep k st p.2.2 p.1) (1, [(p.2.2, p.1)])
        else m) m) e = none := by
  intro ps
  induction ps with
  | nil => intro m hm; exact hm
  | cons p ps ih =>
    intro m hm
    rw [List.foldl_cons]
    apply ih
    by_cases hp : p.2.1 ∈ fSet
    · rw [if_pos hp, alookup_alUpdate_ne]
      · exact hm
      · intro hc
        rw [hc] at hf
        exact hf hp
    · rw [if_neg hp]
      exact hm

theorem filterFold_mem (fSet : List Nat) (k e : Nat) (hf : e ∈ fSet) :
    ∀ (ps : List (Nat × Nat × Nat)) (m1 m2 : List (Nat × (Nat × List (Nat × Nat)))),
      alookup m1 e = alookup m2 e →
      alookup (ps.foldl (fun m p =>
        if p.2.1 ∈ fSet then
          alUpdate m p.2.1 (fun st => aggStep k st p.2.2 p.1) (1, [(p.2.2, p.1)])
        else m) m1) e =
      alookup (ps.foldl (fun m p =>
        alUpdate m p.2.1 (fun st => aggStep k st p.2.2 p.1) (1, [(p.2.2, p.1)])) m2) e := by
  intro ps
  induction ps with
  | nil => intro m1 m2 hm; exact hm
  | cons p ps ih =>
    intro m1 m2 hm
    rw [List.foldl_cons, List.foldl_cons]
    apply ih
    by_cases hpe : p.2.1 = e
    · subst hpe
      rw [if_pos hf, alookup_alUpdate_self, alookup_alUpdate_self, hm]
    · have hne : e ≠ p.2.1 := fun hc => hpe hc.symm
      by_cases hp : p.2.1 ∈ fSet
      · rw [if_pos hp, alookup_alUpdate_ne _ _ _ _ _ hne,
          alookup_alUpdate_ne _ _ _ _ _ hne]
        exact hm
      · rw [if_neg hp, alookup_alUpdate_ne _ _ _ _ _ hne]
        exact hm

theorem aggStep_one_view (w : Nat × (Nat × Nat)) (s c : Nat) :
    aggStep 1 (w.1, [(w.2.2, w.2.1)]) s c =
      ((aggTopStep w c s).1,
        [((aggTopStep w c s).2.2, (aggTopStep w c s).2.1)]) := by
  obtain ⟨cnt, c0, s0⟩ := w
  by_cases h : s0 < s
  · simp [aggStep, aggTopStep, stcInsert, h]
  · simp [aggStep, aggTopStep, h]

theorem filterFold_mem_one (fSet : List Nat) (e : Nat) (hf : e ∈ fSet) :
    ∀ (ps : List (Nat × Nat × Nat)) (m1 : List (Nat × (Nat × List (Nat × Nat))))
      (m2 : List (Nat × (Nat × (Nat × Nat)))),
      alookup m1 e = (alookup m2 e).map (fun st => (st.1, [(st.2.2, st.2.1)])) →
      alookup (ps.foldl (fun m p =>
        if p.2.1 ∈ fSet then
          alUpdate m p.2.1 (fun st => aggStep 1 st p.2.2 p.1) (1, [(p.2.2, p.1)])
        else m) m1) e =
      (alookup (ps.foldl (fun m p =>
        alUpdate m p.2.1 (fun st => aggTopStep st p.1 p.2.2) (1, (p.1, p.2.2))) m2) e).map
        (fun st => (st.1, [(st.2.2, st.2.1)])) := by
  intro ps
  induction ps with
  | nil => intro m1 m2 hm; exact hm
  | cons p ps ih =>
    intro m1 m2 hm
    rw [List.foldl_cons, List.foldl_cons]
    apply ih
    by_cases hpe : p.2.1 = e
    · subst hpe
      rw [if_pos hf, alookup_alUpdate_self, alookup_alUpdate_self]
      match h2 : alookup m2 p.2.1 with
      | some w =>
        rw [h2] at hm
        simp only [Option.map_some'] at hm
        rw [hm]
        simp only [Option.map_some']
        rw [aggStep_one_view]
      | none =>
        rw [h2] at hm
        simp only [Option.map_none'] at hm
        rw [hm]
        simp
    · have hne : e ≠ p.2.1 := fun hc => hpe hc.symm
      by_cases hp : p.2.1 ∈ fSet
      · rw [if_pos hp, alookup_alUpdate_ne _ _ _ _ _ hne,
          alookup_alUpdate_ne _ _ _ _ _ hne]
        exact hm
      · rw [if_neg hp, alookup_alUpdate_ne _ _ _ _ _ hne]
        exact hm

/-! Multi-variable filtered aggregator (filter-set version). -/

/-- Tail of the mixed-radix grouping key: slots 1..nofVars-1 drawn from all
entities of the context, peeling n by repeated division. -/
def keyTail (es : List Nat) : Nat → Nat → List Nat
  | 0, _ => []
  | cnt + 1, n => es.getD (n % es.length) 0 :: keyTail es cnt (n / es.length)

/-- Mixed-radix grouping key of the multi-variable filtered aggregator: the
first slot from the filtered entities of the context, the rest from all its
entities. -/
def mkFilteredKey (fes es : List Nat) (nofVars j : Nat) : List Nat :=
  fes.getD (j % fes.length) 0 :: keyTail es (nofVars - 1) (j / fes.length)

/-- Flush of one finished context: when filtered entities exist, every
mixed-radix key over (filtered, all^(nofVars-1)) updates the map with the
context's (score, cid), with the same count/ordered-set step as the other
aggregators. -/
def addContextKeys (kLimit : Nat) (m : List (List Nat × (Nat × List (Nat × Nat))))
    (fes es : List Nat) (nofVars cscore ccid : Nat) :
    List (List Nat × (Nat × List (Nat × Nat))) :=
  if fes.length = 0 then m
  else
    (List.range (fes.length * es.length ^ (nofVars - 1))).foldl
      (fun m j => alUpdate m (mkFilteredKey fes es nofVars j)
        (fun st => aggStep kLimit st cscore ccid) (1, [(cscore, ccid)])) m

/-- Loop state of the multi-variable filtered aggregator: the entities and
filtered entities of the current context, the current cid and its first
score, and the aggregation map. -/
structure MVState where
  ents : List Nat
  fents : List Nat
  ccid : Nat
  cscore : Nat
  aggmap : List (List Nat × (Nat × List (Nat × Nat)))

/-- One posting's step of the multi-variable filtered aggregator loop. -/
def mvStep (kLimit nofVars : Nat) (fSet : List Nat) (st : MVState)
    (p : Nat × Nat × Nat) : MVState :=
  if p.1 = st.ccid then
    { st with ents := st.ents ++ [p.2.1],
              fents := if p.2.1 ∈ fSet then st.fents ++ [p.2.1] else st.fents }
  else
    { ents := [p.2.1],
      fents := if p.2.1 ∈ fSet then [p.2.1] else [],
      ccid := p.1, cscore := p.2.2,
      aggmap := addContextKeys kLimit st.aggmap st.fents st.ents nofVars
        st.cscore st.ccid }

/-- One output row of the multi-variable filtered aggregator of width w:
column 0 the context, column 1 the count; the source then writes key slot i
(i ≥ 1) to column 2+i while advancing a separate offset, and finally writes
key slot 0 at that offset, 2 + (|key| - 1). -/
def mvEmitRow (w ccid rscore : Nat) (keyEids : List Nat) : List Nat :=
  (((List.range (keyEids.length - 1)).foldl
      (fun r i => r.set (2 + (i + 1)) (keyEids.getD (i + 1) 0))
      (((List.replicate w 0).set 0 ccid).set 1 rscore))).set
    (2 + (keyEids.length - 1)) (keyEids.getD 0 0)

/-- FTSAlgorithms::multVarsFilterAggScoresAndTakeTopKContexts (filter-set
version, template width w): early return of an empty result on an empty
posting stream or empty filter; otherwise group postings by context,
flushing each finished context's mixed-radix keys into the map, flush the
last context, then emit each key's top contexts in descending order. Map
iteration is modelled in key-insertion order. -/
def multVarsFilterAggScoresAndTakeTopKContexts (cids eids scores fSet : List Nat)
    (nofVars kLimit w : Nat) : List (List Nat) :=
  if cids.length = 0 ∨ fSet.length = 0 then []
  else
    let ps := cids.zip (eids.zip scores)
    let stF := ps.foldl (mvStep kLimit nofVars fSet)
      ⟨[], [], cids.getD 0 0, scores.getD 0 0, []⟩
    let m := addContextKeys kLimit stF.aggmap stF.fents stF.ents nofVars
      stF.cscore stF.ccid
    m.flatMap (fun ent =>
      ent.2.2.reverse.map (fun sc => mvEmitRow w sc.2 ent.2.1 ent.1))

/-! crossIntersectKWay. The source's round-robin loop does not structurally
terminate on one cursor, so it is modelled with explicit fuel; the top level
supplies fuel that covers every execution (each iteration either returns or
is within one step of strict cursor progress). At a full-streak match the
source reads scores at nextIndices[i] - 1 for the already-advanced lists;
these reads are guarded by the streak invariant and modelled with getD. -/

/-- Entity-mode emission of a matched context: walk the last list's run of
the matched context from index m, one row (cid, eid, score) per posting;
returns the final index and the rows. -/
def kwayEntityRun (lastCids lastScores eids : List Nat) (ctx s m : Nat) :
    Nat × List (Nat × Nat × Nat) :=
  if h : m < lastCids.length then
    if lastCids.get ⟨m, h⟩ = ctx then
      let rest := kwayEntityRun lastCids lastScores eids ctx s (m + 1)
      (rest.1, (ctx, eids.getD m 0, s + lastScores.getD m 0) :: rest.2)
    else (m, [])
  else (m, [])
termination_by lastCids.length - m

/-- Score contribution of the first k-1 lists at a full-streak match: list i
is read at its cursor when it is the current list, else one before it. -/
def kwayScoreSum (weps : List WEP) (ni : List Nat) (cur k : Nat) : Nat :=
  ((List.range (k - 1)).map (fun i =>
    (weps.getD i WEP.emptyWep).scores.getD
      (if i = cur then ni.getD i 0 else ni.getD i 0 - 1) 0)).sum

/-- Round-robin loop of FTSAlgorithms::crossIntersectKWay: maintain cursors,
the current context and the streak; advance the current list past smaller
contexts, grow or reset the streak, and at streak = k emit (the whole last
run in entity mode, a single row otherwise) and restart at the last list. -/
def kwayLoop (weps : List WEP) (eids? : Option (List Nat)) (k : Nat) :
    Nat → List Nat → Nat → Nat → Nat → List (Nat × Nat × Nat) →
    Option (List (Nat × Nat × Nat))
  | 0, _, _, _, _, _ => none
  | fuel + 1, ni, ctx, cur, streak, acc =>
    let cids := (weps.getD cur WEP.emptyWep).cids
    let sz := cids.length
    if ni.getD cur 0 = sz then some acc
    else
      let m := skipLow cids ctx (ni.getD cur 0)
      if m = sz then some acc
      else
        let ni1 := ni.set cur m
        let atId := cids.getD m 0
        if atId = ctx then
          if streak + 1 = k then
            let s := kwayScoreSum weps ni1 cur k
            match eids? with
            | some eids =>
              let start := if k - 1 = cur then ni1.getD (k - 1) 0
                else ni1.getD (k - 1) 0 - 1
              let run := kwayEntityRun (weps.getD (k - 1) WEP.emptyWep).cids
                (weps.getD (k - 1) WEP.emptyWep).scores eids ctx s start
              kwayLoop weps eids? k fuel (ni1.set (k - 1) run.1) ctx (k - 1)
                (streak + 1) (acc ++ run.2)
            | none =>
              let idx := if k - 1 = cur then ni1.getD (k - 1) 0
                else ni1.getD (k - 1) 0 - 1
              kwayLoop weps eids? k fuel ni1 ctx (k - 1) (streak + 1)
                (acc ++ [(ctx, 0,
                  s + (weps.getD (k - 1) WEP.emptyWep).scores.getD idx 0)])
          else
            kwayLoop weps eids? k fuel (ni1.set cur (m + 1)) ctx
              (if cur + 1 = k then 0 else cur + 1) (streak + 1) acc
        else
          kwayLoop weps eids? k fuel (ni1.set cur (m + 1)) atId
            (if cur + 1 = k then 0 else cur + 1) 1 acc

/-- FTSAlgorithms::crossIntersectKWay: early return on an empty last list
(and, without entities, on any empty list), then the round-robin loop. The
result carries cids, scores and (in entity mode) eids; the source never
writes the wids member of the result, so it stays empty. -/
def crossIntersectKWay (weps : List WEP) (eids? : Option (List Nat)) : Option WEP :=
  let k := weps.length
  if ((weps.getD (k - 1) WEP.emptyWep).cids).length = 0 then some WEP.emptyWep
  else if eids?.isNone ∧ weps.any (fun w => w.cids.isEmpty) then some WEP.emptyWep
  else
    let fuel := 2 * (weps.map (fun w => w.cids.length)).sum + k + 2
    match kwayLoop weps eids? k fuel (List.replicate k 0)
      ((weps.getD (k - 1) WEP.emptyWep).cids.getD 0 0) (k - 1) 0 [] with
    | none => none
    | some rows =>
      some ⟨rows.map (fun r => r.1), [],
        (match eids? with
          | some _ => rows.map (fun r => r.2.1)
          | none => []),
        rows.map (fun r => r.2.2)⟩

/-! Claim theorems. -/

/-- C1 (the code does not implement the claimed semantics): with the word
list cids [0, 0] (word column [1, 2], unit scores) and the entity-side list
cids [0] (score 1), entity column [9] supplied, the claim predicts one
output row per combination of rows sharing context 0 — two rows, each
carrying both word values. The source emits a single row per entity posting
of the matched context and never writes the result's word column (the
output wids stay empty); its own comment admits the fault ("algorithm is
probably faulty rightnow. WordId needs to be considered"). -/
theorem claim_C1_crossIntersectKWay_eval :
    crossIntersectKWay [⟨[0, 0], [1, 2], [], [1, 1]⟩, ⟨[0], [5], [], [1]⟩]
        (some [9]) = some ⟨[0], [], [9], [2]⟩ := by
  simp [crossIntersectKWay, kwayLoop, skipLow, kwayEntityRun, kwayScoreSum,
    WEP.emptyWep]
  decide

/-- C2 counterexample: with two postings carrying the same (entity, context)
pair but different words (cids [0, 0], eids [7, 7], wids [3, 4], unit
scores) and k = 2, the k>1 aggregator emits entityScore 2, while the number
of distinct (entity, context) pairs of entity 7 is 1: in this source every
posting increments the count (there is no CtxWordMap deduplication). -/
theorem claim_C2_counterexample :
    aggScoresAndTakeTopKContextsWep ⟨[0, 0], [3, 4], [7, 7], [1, 1]⟩ 2 =
        some [(0, 2, 7, 4), (0, 2, 7, 3)] ∧
      distinctEntityContextPairs ⟨[0, 0], [3, 4], [7, 7], [1, 1]⟩ 7 = 1 ∧
      (2 : Nat) ≠ 1 := by
  decide

/-- C2 (amended): in the k>1 WEP aggregator, the entityScore carried by
every emitted row equals the total number of input postings attributed to
that row's entity: each posting increments the count, including further
postings with an already-seen (entity, context) pair. -/
theorem claim_C2_aggScores (wep : WEP) (k : Nat) (hk : 1 < k)
    (out : List (Nat × Nat × Nat × Nat))
    (hres : aggScoresAndTakeTopKContextsWep wep k = some out)
    (row : Nat × Nat × Nat × Nat) (hrow : row ∈ out) :
    row.2.1 = wep.eids.countP (fun x => decide (x = row.2.2.1)) := by
  rw [aggScoresAndTakeTopKContextsWep] at hres
  by_cases hchk : wep.cids.length = wep.eids.length ∧ wep.cids.length = wep.scores.length
  · rw [if_pos hchk] at hres
    rw [if_neg (by omega)] at hres
    have hout : out = aggWepKRows k wep.postings := (Option.some_inj.mp hres).symm
    subst hout
    rw [aggWepKRows, List.mem_flatMap] at hrow
    obtain ⟨ent, hent, hrow2⟩ := hrow
    rw [List.mem_map] at hrow2
    obtain ⟨t, _, hteq⟩ := hrow2
    have hcnt : ent.2.1 = wep.postings.countP (fun p => decide (p.2.1 = ent.1)) := by
      have hnd := aggWepMapK_keys_nodup k wep.postings [] (by simp)
      rw [← aggWepMapK] at hnd
      have hlk := alookup_of_mem_nodup _ hnd ent.1 ent.2 (by
        obtain ⟨e, st⟩ := ent
        exact hent)
      have hc := aggWepMapK_fold_count k ent.1 wep.postings []
      rw [← aggWepMapK, countOf3, hlk] at hc
      simpa [countOf3, alookup] using hc
    rw [← hteq]
    show ent.2.1 = _
    rw [hcnt, countP_postings_eids]
  · rw [if_neg hchk] at hres
    exact absurd hres (by simp)

theorem claim_C2_aggScores_witness :
    (1 : Nat) < 2 ∧
      aggScoresAndTakeTopKContextsWep ⟨[0, 1, 2], [1, 1, 2], [0, 0, 0], [0, 1, 2]⟩ 2 =
        some [(2, 3, 0, 2), (1, 3, 0, 1)] ∧
      ((2 : Nat), (3 : Nat), (0 : Nat), (2 : Nat)).2.1 =
        ([0, 0, 0] : List Nat).countP
          (fun x => decide (x = ((2 : Nat), (3 : Nat), (0 : Nat), (2 : Nat)).2.2.1)) :=
  ⟨by decide, by decide,
    claim_C2_aggScores ⟨[0, 1, 2], [1, 1, 2], [0, 0, 0], [0, 1, 2]⟩ 2 (by decide)
      [(2, 3, 0, 2), (1, 3, 0, 1)] (by decide) (2, 3, 0, 2) (by decide)⟩

/-- C3 counterexample: with the full ordered set {(1, 0), (1, 5)} (k = 2,
both entries tied on the minimal score 1) and an incoming pair of strictly
greater score 3, the step evicts (1, 0) and keeps (1, 5): among the tied
entries the context KEPT is the one with the larger id, not the smallest
(the smallest-id entry is what gets removed). -/
theorem claim_C3_counterexample :
    aggStep 2 (5, [(1, 0), (1, 5)]) 3 9 = (6, [(1, 5), (3, 9)]) ∧
      ((1, 0) : Nat × Nat) ∉ ([(1, 5), (3, 9)] : List (Nat × Nat)) ∧
      ((1, 5) : Nat × Nat) ∈ ([(1, 5), (3, 9)] : List (Nat × Nat)) ∧
      (0 : Nat) < 5 := by
  decide

/-- C3 (amended): when the per-entity ordered set is full (size k > 0,
strictly sorted by (score, contextId)) and the new context scores strictly
above the minimum, the evicted element is begin() = the head = the minimum
of the set, and among entries tied on the minimal score the one EVICTED is
the context with the smallest id (removal is smallest-first; the kept tied
entries are those with larger ids). -/
theorem claim_C3_aggStep (k cnt s c : Nat) (stc : List (Nat × Nat))
    (hsort : stc.Pairwise (fun a b => pairLtb a b = true))
    (hlen : stc.length = k) (hk : 0 < k)
    (hmin : (stc.headD (0, 0)).1 < s) :
    aggStep k (cnt, stc) s c = (cnt + 1, stcInsert (s, c) stc.tail) ∧
      (∀ x ∈ stc, stc.headD (0, 0) = x ∨ pairLtb (stc.headD (0, 0)) x = true) ∧
      (∀ x ∈ stc, x.1 = (stc.headD (0, 0)).1 → (stc.headD (0, 0)).2 ≤ x.2) := by
  refine ⟨?_, ?_, ?_⟩
  · rw [aggStep]
    simp only
    rw [if_pos (Or.inr hmin), if_pos hlen]
  · intro x hx
    match stc, hx with
    | (s0, c0) :: t, hx =>
      rcases List.mem_cons.mp hx with rfl | hx'
      · exact Or.inl rfl
      · exact Or.inr ((List.pairwise_cons.mp hsort).1 x hx')
  · intro x hx hxs
    match stc, hx, hxs with
    | (s0, c0) :: t, hx, hxs =>
      rcases List.mem_cons.mp hx with rfl | hx'
      · exact Nat.le_refl _
      · have hlt := (List.pairwise_cons.mp hsort).1 x hx'
        simp only [pairLtb, List.headD_cons] at hlt hxs ⊢
        rcases Bool.or_eq_true_iff.mp hlt with h1 | h1
        · have h4 : s0 < x.1 := by simpa using h1
          omega
        · obtain ⟨h2, h3⟩ := Bool.and_eq_true_iff.mp h1
          have h4 : c0 < x.2 := by simpa using h3
          omega

theorem claim_C3_aggStep_witness :
    aggStep 2 (5, [(1, 0), (1, 5)]) 3 9 = (6, stcInsert (3, 9) [(1, 5)]) ∧
      (∀ x ∈ ([(1, 0), (1, 5)] : List (Nat × Nat)),
        ([(1, 0), (1, 5)] : List (Nat × Nat)).headD (0, 0) = x ∨
          pairLtb (([(1, 0), (1, 5)] : List (Nat × Nat)).headD (0, 0)) x = true) ∧
      (∀ x ∈ ([(1, 0), (1, 5)] : List (Nat × Nat)),
        x.1 = (([(1, 0), (1, 5)] : List (Nat × Nat)).headD (0, 0)).1 →
          (([(1, 0), (1, 5)] : List (Nat × Nat)).headD (0, 0)).2 ≤ x.2) :=
  claim_C3_aggStep 2 5 3 9 [(1, 0), (1, 5)] (by decide) rfl (by decide) (by decide)

/-- C4 counterexample: on the valid sorted inputs left cids [1, 2, 2] (word
column [7, 8, 9]) and right cids [2], the inner run scan reads the left cids
column at index 3 = its length (undefined behaviour in the source), so the
modelled execution produces no output at all, let alone the claimed
cross-product of 2 rows. -/
theorem claim_C4_counterexample :
    crossIntersect ⟨[1, 2, 2], [7, 8, 9], [], []⟩ ⟨[2], [], [5], [1]⟩ = none ∧
      ([1, 2, 2] : List Nat).Sorted (· ≤ ·) ∧ ([2] : List Nat).Sorted (· ≤ ·) := by
  refine ⟨?_, by decide, by decide⟩
  simp [crossIntersect, ciOuter, ciEq, ciRun, skipLow]

/-- C4 (amended): whenever crossIntersect completes without the
out-of-bounds run scan (result some), it emits, for each context value
present on both sides, every pairing of a left row and a right row with that
context, carrying the left word and the right entity and score, and the
output length is exactly the sum over common context values of the product
of the two run lengths. -/
theorem claim_C4_crossIntersect (L R : WEP) (hL : L.cids.Sorted (· ≤ ·))
    (hR : R.cids.Sorted (· ≤ ·)) (out : WEP)
    (hres : crossIntersect L R = some out) :
    out = wepOfRows (crossRows L R) ∧
      out.cids.length =
        ((R.cids.dedup.filter (fun v => decide (v ∈ L.cids))).map
          (fun v => L.cids.countP (fun c => decide (c = v)) *
            R.cids.countP (fun c => decide (c = v)))).sum := by
  have h := crossIntersect_spec L R hL hR out hres
  refine ⟨h, ?_⟩
  rw [h]
  show ((crossRows L R).map (fun r => r.2.1)).length = _
  rw [List.length_map]
  exact crossRows_length L R

theorem claim_C4_crossIntersect_witness :
    (⟨[2, 2], [7, 7], [5, 6], [3, 4]⟩ : WEP) =
        wepOfRows (crossRows ⟨[2], [7], [], []⟩ ⟨[2, 2], [], [5, 6], [3, 4]⟩) ∧
      (⟨[2, 2], [7, 7], [5, 6], [3, 4]⟩ : WEP).cids.length =
        ((([2, 2] : List Nat).dedup.filter
            (fun v => decide (v ∈ ([2] : List Nat)))).map
          (fun v => ([2] : List Nat).countP (fun c => decide (c = v)) *
            ([2, 2] : List Nat).countP (fun c => decide (c = v)))).sum :=
  claim_C4_crossIntersect ⟨[2], [7], [], []⟩ ⟨[2, 2], [], [5, 6], [3, 4]⟩
    (by decide) (by decide) ⟨[2, 2], [7, 7], [5, 6], [3, 4]⟩
    (by simp [crossIntersect, ciOuter, ciEq, ciRun, skipLow, wepOfRows])

/-- C5 (the code does not implement the claimed identity): on the single
list with cids [5, 7], word column [1, 2], scores [1, 2] and entity column
[50, 70], the claim predicts the whole list back (with the entity column
promoted); the source returns only the leading run of the first context
(after the first match the streak never returns to 0, so for k = 1 no later
context can match again) and drops the word column. -/
theorem claim_C5_crossIntersectKWay_eval :
    crossIntersectKWay [⟨[5, 7], [1, 2], [], [1, 2]⟩] (some [50, 70]) =
        some ⟨[5], [], [50], [1]⟩ ∧
      (⟨[5], [], [50], [1]⟩ : WEP) ≠ ⟨[5, 7], [1, 2], [50, 70], [1, 2]⟩ := by
  refine ⟨?_, by decide⟩
  simp [crossIntersectKWay, kwayLoop, skipLow, kwayEntityRun, kwayScoreSum,
    WEP.emptyWep]

/-- C6 counterexample: with left cids [2] and right cids [2, 2] (both
non-decreasing, no out-of-bounds read involved), the output cids are [2, 2],
which is not a subsequence of the left cids [2]: the cross-product repeats
the left run once per matching right row. -/
theorem claim_C6_counterexample :
    crossIntersect ⟨[2], [7], [], []⟩ ⟨[2, 2], [], [5, 6], [3, 4]⟩ =
        some ⟨[2, 2], [7, 7], [5, 6], [3, 4]⟩ ∧
      ([2] : List Nat).Sorted (· ≤ ·) ∧ ([2, 2] : List Nat).Sorted (· ≤ ·) ∧
      ¬ (([2, 2] : List Nat).Sublist [2]) := by
  refine ⟨?_, by decide, by decide, by decide⟩
  simp [crossIntersect, ciOuter, ciEq, ciRun, skipLow, wepOfRows]

/-- C6 (amended): whenever crossIntersect completes (result some), the
output cids column is non-decreasing, and every context value occurring in
it occurs in both input cids columns (it need not be a subsequence of
either, because the per-context cross-product repeats values). -/
theorem claim_C6_crossIntersect (L R : WEP) (hL : L.cids.Sorted (· ≤ ·))
    (hR : R.cids.Sorted (· ≤ ·)) (out : WEP)
    (hres : crossIntersect L R = some out) :
    out.cids.Sorted (· ≤ ·) ∧ ∀ x ∈ out.cids, x ∈ L.cids ∧ x ∈ R.cids := by
  have h := crossIntersect_spec L R hL hR out hres
  rw [h]
  exact ⟨crossRows_cids_sorted L R hR, fun x hx => crossRows_cids_mem L R x hx⟩

theorem claim_C6_crossIntersect_witness :
    (⟨[2], [4], [5], [1]⟩ : WEP).cids.Sorted (· ≤ ·) ∧
      ∀ x ∈ (⟨[2], [4], [5], [1]⟩ : WEP).cids,
        x ∈ ([2, 3] : List Nat) ∧ x ∈ ([2] : List Nat) :=
  claim_C6_crossIntersect ⟨[2, 3], [4, 8], [], []⟩ ⟨[2], [], [5], [1]⟩
    (by decide) (by decide) ⟨[2], [4], [5], [1]⟩
    (by simp [crossIntersect, ciOuter, ciEq, ciRun, skipLow, wepOfRows])

/-- C7: filterByRange keeps exactly the rows whose word id lies in the
inclusive interval [first, last], in their original order and without
deduplication; in particular on cids = [0,0,1,2,3,4], wids = [2,5,7,5,6,8],
unit scores and range [5,7] the output has length 4 and consists of exactly
the input rows at indices 1, 2, 3, 4 (word values 5, 7, 5, 6). -/
theorem claim_C7_filterByRange (r : IdRange) (wep : WEP)
    (h1 : wep.cids.length = wep.wids.length)
    (h2 : wep.cids.length = wep.scores.length) :
    filterByRange r wep =
        some (wepOfRows1 (wep.rows1.filter
          (fun t => decide (r.first ≤ t.2.2 ∧ t.2.2 ≤ r.last)))) ∧
      (filterByRange ⟨5, 7⟩ ⟨[0, 0, 1, 2, 3, 4], [2, 5, 7, 5, 6, 8], [], [1, 1, 1, 1, 1, 1]⟩ =
          some ⟨[0, 1, 2, 3], [5, 7, 5, 6], [], [1, 1, 1, 1]⟩ ∧
        (wepOfRows1 ((WEP.rows1 ⟨[0, 0, 1, 2, 3, 4], [2, 5, 7, 5, 6, 8], [], [1, 1, 1, 1, 1, 1]⟩).filter
          (fun t => decide (5 ≤ t.2.2 ∧ t.2.2 ≤ 7)))).cids.length = 4) := by
  refine ⟨?_, ?_, ?_⟩
  · rw [filterByRange, if_pos ⟨h1, h2⟩,
      filterByRangeFrom_eq_filter r wep h1 h2 0, List.drop_zero]
    rfl
  · simp only [filterByRange, wepOfRows1]
    rw [filterByRangeFrom_eq_filter _ _ rfl rfl 0]
    decide
  · decide

theorem claim_C7_filterByRange_witness :
    ([0, 0, 1, 2, 3, 4] : List Nat).length = [2, 5, 7, 5, 6, 8].length ∧
      ([0, 0, 1, 2, 3, 4] : List Nat).length = [1, 1, 1, 1, 1, 1].length ∧
      filterByRange ⟨5, 7⟩ ⟨[0, 0, 1, 2, 3, 4], [2, 5, 7, 5, 6, 8], [], [1, 1, 1, 1, 1, 1]⟩ =
        some (wepOfRows1 ((WEP.rows1 ⟨[0, 0, 1, 2, 3, 4], [2, 5, 7, 5, 6, 8], [], [1, 1, 1, 1, 1, 1]⟩).filter
          (fun t => decide (5 ≤ t.2.2 ∧ t.2.2 ≤ 7)))) :=
  ⟨rfl, rfl,
    (claim_C7_filterByRange ⟨5, 7⟩ ⟨[0, 0, 1, 2, 3, 4], [2, 5, 7, 5, 6, 8], [], [1, 1, 1, 1, 1, 1]⟩
      rfl rfl).1⟩

/-- C8: for every posting list, filter set and k, the filtered aggregator's
per-entity groups are exactly the groups of the unfiltered aggregator whose
entity lies in the filter, with identical entityScore and top-k (score,
context) set (the k = 1 fast path's best context viewed as a singleton set);
in particular the filtered entity groups are a subset of the unfiltered
ones. The group contents determine the rows emitted for that entity; only
the unspecified hash iteration order over distinct entities can differ. -/
theorem claim_C8_oneVarFilterAgg (cids eids scores fSet : List Nat) (k e : Nat) :
    oneVarFilterAggGroups cids eids scores fSet k e =
      if e ∈ fSet then aggGroups cids eids scores k e else none := by
  by_cases hf : e ∈ fSet
  · rw [if_pos hf]
    by_cases hk : k = 1
    · subst hk
      rw [oneVarFilterAggGroups, aggGroups, if_pos rfl, aggMapKFiltered, aggTopMap]
      exact filterFold_mem_one fSet e hf _ [] [] rfl
    · rw [oneVarFilterAggGroups, aggGroups, if_neg hk, aggMapKFiltered, aggMapK]
      exact filterFold_mem fSet k e hf _ [] [] rfl
  · rw [if_neg hf, oneVarFilterAggGroups, aggMapKFiltered]
    exact filterFold_not_mem fSet k e hf _ [] rfl

/-- C9: both filter-set aggregators return normally with an empty output on
an empty posting stream or an empty filter set; the one-variable variant
first checks its AD_CHECK_EQ preconditions (equal column lengths), the
multi-variable variant has no such checks. -/
theorem claim_C9_degenerate_empty (cids eids scores fSet : List Nat)
    (nofVars kLimit w k : Nat)
    (hlen1 : cids.length = eids.length) (hlen2 : cids.length = scores.length)
    (hdeg : cids = [] ∨ fSet = []) :
    oneVarFilterAggScoresAndTakeTopKContexts cids eids scores fSet k = some [] ∧
      multVarsFilterAggScoresAndTakeTopKContexts cids eids scores fSet
        nofVars kLimit w = [] := by
  have hz : cids.length = 0 ∨ fSet.length = 0 := by
    rcases hdeg with rfl | rfl
    · exact Or.inl rfl
    · exact Or.inr rfl
  constructor
  · rw [oneVarFilterAggScoresAndTakeTopKContexts, if_pos ⟨hlen1, hlen2⟩, if_pos hz]
  · rw [multVarsFilterAggScoresAndTakeTopKContexts, if_pos hz]

theorem claim_C9_degenerate_empty_witness :
    (([] : List Nat).length = ([] : List Nat).length ∧
        ([] : List Nat).length = ([] : List Nat).length ∧
        (([] : List Nat) = [] ∨ ([7] : List Nat) = [])) ∧
      oneVarFilterAggScoresAndTakeTopKContexts [] [] [] [7] 2 = some [] ∧
      multVarsFilterAggScoresAndTakeTopKContexts [] [] [] [7] 2 3 5 = [] :=
  ⟨⟨rfl, rfl, Or.inl rfl⟩,
    claim_C9_degenerate_empty [] [] [] [7] 2 3 5 2 rfl rfl (Or.inl rfl)⟩

/-- C10 (the code reads out of bounds): at left cids [2, 2, 3] and right
cids [2, 3] (both non-decreasing, parallel columns of equal length), the
inner run scan of the context 3 starts at left index 2 and reads the left
cids column at index 3 = its length before its guard (which compares k, not
i + k, against that length) can stop it; the modelled execution aborts. -/
theorem claim_C10_crossIntersect_oob :
    crossIntersect ⟨[2, 2, 3], [7, 8, 9], [], []⟩ ⟨[2, 3], [], [5, 6], [1, 1]⟩ = none := by
  simp [crossIntersect, ciOuter, ciEq, ciRun, skipLow]

end FTS
